import Mathlib

/-!
# lcg-predict: modular arithmetic, fast combination, affine transforms, engine

A shallow embedding of `src/include/lcg_predict.hpp`.

* A template argument `T` (an unsigned integral type) is a `UIntType`; a value of
  type `T` is a `Word T`, a natural number below `2 ^ T.bits`.
* Values of the double-width types `UnsignedBigger` / `SignedBigger` are `Nat` / `Int`;
  unsigned double-width arithmetic wraps explicitly modulo `2 ^ T.bigger_bits`.
* `static_cast<T>` is `cast_T`, reduction modulo `2 ^ T.bits`.
* An `unsigned long long` step count is a `Nat` below `2 ^ 64`.
* The candidate types of `least_doubled_uint` have the sizes 4, 8, 8 and 16 bytes, so the
  double-width type of an 8 or 16 bit `T` has 32 bits, of a 32 bit `T` 64 bits and of a
  64 bit `T` 128 bits.
-/

namespace LcgPredict

/-! ## Integer types -/

/-- The unsigned integral types the templates are instantiated with, by size. -/
inductive UIntType where
  | u8
  | u16
  | u32
  | u64
  deriving DecidableEq

/-- Size in bytes, `sizeof(T)`. -/
def UIntType.sizeof : UIntType → Nat
  | .u8 => 1
  | .u16 => 2
  | .u32 => 4
  | .u64 => 8

/-- Width in bits of `T`. -/
def UIntType.bits (T : UIntType) : Nat := 8 * T.sizeof

/-- The member `least_doubled_uint<T>::finder<Head, Tail...>::type`, on sizes in bytes:
the first candidate at least twice as large as `T`; the last candidate when the pack is
exhausted (`finder<Last>`). -/
def finder (sizeofT : Nat) : Nat → List Nat → Nat
  | Last, [] => Last
  | Head, Next :: Tail => if Head ≥ 2 * sizeofT then Head else finder sizeofT Next Tail

/-- Size in bytes of `least_doubled_uint_t<T>`: `finder_t<unsigned int, unsigned long,
unsigned long long, __uint128_t>` with sizes 4, 8, 8, 16 (LP64). -/
def least_doubled_uint (T : UIntType) : Nat := finder T.sizeof 4 [8, 8, 16]

/-- Width in bits of `UnsignedBigger` (and of `SignedBigger`, which has the same size). -/
def UIntType.bigger_bits (T : UIntType) : Nat := 8 * least_doubled_uint T

/-- A value of type `T`. -/
abbrev Word (T : UIntType) : Type := Fin (2 ^ T.bits)

/-- The conversion `static_cast<T>(v)` of an unsigned double-width value. -/
def cast_T (T : UIntType) (v : Nat) : Word T :=
  ⟨v % 2 ^ T.bits, Nat.mod_lt _ (Nat.pos_pow_of_pos _ (by decide))⟩

/-- The conversion `static_cast<T>(v)` of a signed double-width value. -/
def cast_T_signed (T : UIntType) (v : Int) : Word T :=
  cast_T T (v % (2 ^ T.bits : Int)).toNat

/-- Wraparound of unsigned arithmetic in `UnsignedBigger`. -/
def wrap_bigger (T : UIntType) (v : Nat) : Nat := v % 2 ^ T.bigger_bits

/-- Width in bits of the type in which `T` and `unsigned int` are combined by the usual
arithmetic conversions: `unsigned int` (32 bits) for a narrower `T`, otherwise `T` itself. -/
def UIntType.promoted_bits (T : UIntType) : Nat := if T.bits < 32 then 32 else T.bits

/-! ## double_and_add -/

/-- The loop of `double_and_add`: `for (; n != 0; n >>= 1U)`, with `fuel` bounding the
number of iterations. -/
def double_and_add_loop {α : Type} (op : α → α → α) : Nat → Nat → α → α → α
  | 0, _, result, _ => result
  | fuel + 1, n, result, var_elem =>
    if n = 0 then result
    else
      double_and_add_loop op fuel (n / 2)
        (if n % 2 ≠ 0 then op result var_elem else result)
        (op var_elem var_elem)

/-- The function `double_and_add(elem, n, op, unit)`; `n` is an `unsigned long long`, so 64
iterations exhaust it. -/
def double_and_add {α : Type} (elem : α) (n : Nat) (op : α → α → α) (unit : α) : α :=
  double_and_add_loop op 64 n unit elem

/-- The `n`-fold combination `e op e op ... op e` with `n` copies of `e`, read from the left;
`unit` for `n = 0`. This is the specification `double_and_add` is compared with. -/
def n_fold {α : Type} (op : α → α → α) (unit : α) (e : α) : Nat → α
  | 0 => unit
  | 1 => e
  | k + 2 => op (n_fold op unit e (k + 1)) e

/-- On the elements satisfying `P`, `op` is associative with two-sided identity `unit`. -/
structure MonoidOn {α : Type} (P : α → Prop) (op : α → α → α) (unit : α) : Prop where
  unit_mem : P unit
  op_mem : ∀ x y, P x → P y → P (op x y)
  assoc : ∀ x y z, P x → P y → P z → op (op x y) z = op x (op y z)
  unit_op : ∀ x, P x → op unit x = x
  op_unit : ∀ x, P x → op x unit = x

/-! ## UnsignedModder -/

/-- The struct `UnsignedModder<T>`: the stored modulus `m`, where 0 stands for `2 ^ W`. -/
structure UnsignedModder (T : UIntType) where
  m : Word T
  deriving DecidableEq

namespace UnsignedModder

variable {T : UIntType}

/-- The member `real_m<UnsignedBigger>()`. -/
def real_m (md : UnsignedModder T) : Nat :=
  if md.m.val ≠ 0 then md.m.val else wrap_bigger T ((2 ^ T.bits - 1) + 1)

/-- The member `real_m<SignedBigger>()`. -/
def real_m_signed (md : UnsignedModder T) : Int :=
  if md.m.val ≠ 0 then (md.m.val : Int) else ((2 ^ T.bits - 1 : Nat) : Int) + 1

/-- The call operator `operator()(U x)` for an unsigned `x`. -/
def apply (md : UnsignedModder T) (x : Nat) : Word T :=
  cast_T T (x % md.real_m)

/-- The call operator `operator()(U x)` for a signed `x`; `%` truncates towards zero. -/
def apply_signed (md : UnsignedModder T) (x : Int) : Word T :=
  let real_m := md.real_m_signed
  let result := Int.tmod x real_m
  cast_T_signed T (if result < 0 then result + real_m else result)

/-- The member `mod(T x)`. -/
def mod (md : UnsignedModder T) (x : Word T) : Word T := md.apply x.val

/-- The member `internal_sum(x, tail...)`. -/
def internal_sum : Word T → List (Word T) → Nat
  | x, [] => x.val
  | x, y :: tail => wrap_bigger T (x.val + internal_sum y tail)

/-- The member `internal_prod_mod(x, tail...)`. -/
def internal_prod_mod (md : UnsignedModder T) : Word T → List (Word T) → Nat
  | x, [] => (md.apply x.val).val
  | x, y :: tail => (md.apply (wrap_bigger T (x.val * md.internal_prod_mod y tail))).val

/-- The member `plus_mod(args...)`. -/
def plus_mod (md : UnsignedModder T) (x : Word T) (tail : List (Word T)) : Word T :=
  md.apply (internal_sum x tail)

/-- The member `minus_mod(x, y)`: the subtraction is unsigned, in `UnsignedBigger`. -/
def minus_mod (md : UnsignedModder T) (x y : Word T) : Word T :=
  md.apply (wrap_bigger T (x.val + 2 ^ T.bigger_bits - y.val))

/-- The member `times_mod(args...)`. -/
def times_mod (md : UnsignedModder T) (x : Word T) (tail : List (Word T)) : Word T :=
  cast_T T (md.internal_prod_mod x tail)

/-- The member `times_plus_mod(x, y, z)`. -/
def times_plus_mod (md : UnsignedModder T) (x y z : Word T) : Word T :=
  md.apply (wrap_bigger T (wrap_bigger T (x.val * y.val) + z.val))

/-- The member `times_plus_plus_mod(x, y, z, w)`. -/
def times_plus_plus_mod (md : UnsignedModder T) (x y z w : Word T) : Word T :=
  md.apply (wrap_bigger T (wrap_bigger T (wrap_bigger T (x.val * y.val) + z.val) + w.val))

/-- The member `pow_mod(base, expo)`. -/
def pow_mod (md : UnsignedModder T) (base : Word T) (expo : Nat) : Word T :=
  double_and_add base expo (fun x y => md.times_mod x [y]) (md.apply_signed 1)

end UnsignedModder

/-- The true modulus as the specification words it: the stored `m`, or `2 ^ W` for the
sentinel 0. The code's `real_m` is compared with it. -/
def true_modulus {T : UIntType} (m : Word T) : Nat := if m.val = 0 then 2 ^ T.bits else m.val

/-! ## LCGAffineTransform -/

/-- The class `LCGAffineTransform<UIntType>`. -/
structure LCGAffineTransform (T : UIntType) where
  modder_ : UnsignedModder T
  a_ : Word T
  c_ : Word T
  deriving DecidableEq

namespace LCGAffineTransform

variable {T : UIntType}

/-- The constructor `LCGAffineTransform(a, c, m)`. -/
def ctor (a c m : Word T) : LCGAffineTransform T :=
  let modder_ : UnsignedModder T := ⟨m⟩
  { modder_ := modder_, a_ := modder_.apply a.val, c_ := modder_.apply c.val }

def set_a (f : LCGAffineTransform T) (a : Word T) : LCGAffineTransform T :=
  { f with a_ := f.modder_.apply a.val }

def set_c (f : LCGAffineTransform T) (c : Word T) : LCGAffineTransform T :=
  { f with c_ := f.modder_.apply c.val }

def set_m (f : LCGAffineTransform T) (m : Word T) : LCGAffineTransform T :=
  { f with modder_ := ⟨m⟩ }

def a (f : LCGAffineTransform T) : Word T := f.a_

def c (f : LCGAffineTransform T) : Word T := f.c_

def m (f : LCGAffineTransform T) : Word T := f.modder_.m

/-- The call operator `operator()(x)`. -/
def apply (f : LCGAffineTransform T) (x : Word T) : Word T :=
  f.modder_.times_plus_mod f.a_ x f.c_

/-- The operator `operator+=`. -/
def plus_assign (f rhs : LCGAffineTransform T) : LCGAffineTransform T :=
  { f with a_ := f.modder_.plus_mod f.a_ [rhs.a_], c_ := f.modder_.plus_mod f.c_ [rhs.c_] }

/-- The operator `operator+`. -/
def plus (lhs rhs : LCGAffineTransform T) : LCGAffineTransform T := lhs.plus_assign rhs

/-- The operator `operator-=`. -/
def minus_assign (f rhs : LCGAffineTransform T) : LCGAffineTransform T :=
  { f with a_ := f.modder_.minus_mod f.a_ rhs.a_, c_ := f.modder_.minus_mod f.c_ rhs.c_ }

/-- The operator `operator-`. -/
def minus (lhs rhs : LCGAffineTransform T) : LCGAffineTransform T := lhs.minus_assign rhs

def compose_assign (f rhs : LCGAffineTransform T) : LCGAffineTransform T :=
  let new_a := f.modder_.times_mod f.a_ [rhs.a_]
  let new_c := f.modder_.times_plus_mod f.a_ rhs.c_ f.c_
  { f with a_ := new_a, c_ := new_c }

/-- The friend `compose(lhs, rhs)`. -/
def compose (lhs rhs : LCGAffineTransform T) : LCGAffineTransform T := lhs.compose_assign rhs

def identity (f : LCGAffineTransform T) : LCGAffineTransform T :=
  ctor (cast_T T 1) (cast_T T 0) f.modder_.m

def powered (f : LCGAffineTransform T) (n : Nat) : LCGAffineTransform T :=
  double_and_add f n (fun lhs rhs => compose lhs rhs) f.identity

/-- The member `min()`: `c_ == 0U ? 1U : 0U`. -/
def min (f : LCGAffineTransform T) : Word T :=
  if f.c_.val = 0 then cast_T T 1 else cast_T T 0

/-- The member `max()`: `modder_.m - 1U`, an unsigned subtraction that wraps for `m = 0`,
converted to `result_type`. -/
def max (f : LCGAffineTransform T) : Word T :=
  cast_T T ((f.modder_.m.val + 2 ^ T.promoted_bits - 1) % 2 ^ T.promoted_bits)

/-- The transform belongs to the modulus `md` and its coefficients are residues below the
true modulus. -/
def Normalized (md : UnsignedModder T) (f : LCGAffineTransform T) : Prop :=
  f.modder_ = md ∧ f.a_.val < md.real_m ∧ f.c_.val < md.real_m

/-- The transform rebuilt by the constructor from its own stored fields. -/
def renormalized (f : LCGAffineTransform T) : LCGAffineTransform T := ctor f.a_ f.c_ f.modder_.m

end LCGAffineTransform

/-! ## LCGEngine -/

/-- The class `LCGEngine<UIntType>`. -/
structure LCGEngine (T : UIntType) where
  affine_ : LCGAffineTransform T
  state_ : Word T
  deriving DecidableEq

namespace LCGEngine

variable {T : UIntType}

def modder (e : LCGEngine T) : UnsignedModder T := ⟨e.affine_.m⟩

/-- The constructor `LCGEngine(affine, state)`. -/
def ctor_affine (affine : LCGAffineTransform T) (state : Word T) : LCGEngine T :=
  let e : LCGEngine T := { affine_ := affine, state_ := state }
  { e with state_ := e.modder.apply state.val }

/-- The constructor `LCGEngine(a, c, m, state)`. -/
def ctor (a c m state : Word T) : LCGEngine T :=
  ctor_affine (LCGAffineTransform.ctor a c m) state

/-- The call operator `operator()()`: the returned value and the engine afterwards. -/
def call (e : LCGEngine T) : Word T × LCGEngine T :=
  let e' : LCGEngine T := { e with state_ := e.affine_.apply e.state_ }
  (e'.state_, e')

/-- The engine after one call of `operator()()`. -/
def step (e : LCGEngine T) : LCGEngine T := (call e).2

def value_after_n_steps (e : LCGEngine T) (steps : Nat) : Word T :=
  (e.affine_.powered steps).apply e.state_

def discard (e : LCGEngine T) (n : Nat) : LCGEngine T :=
  { e with state_ := e.value_after_n_steps n }

/-- A call of the `const` member `value_after_n_steps(steps)` as a transition: the returned
value and the engine afterwards; the body `return affine_.powered(steps)(state_);` assigns
to no member. -/
def value_after_n_steps_call (e : LCGEngine T) (steps : Nat) : Word T × LCGEngine T :=
  (e.value_after_n_steps steps, e)

def state (e : LCGEngine T) : Word T := e.state_

def a (e : LCGEngine T) : Word T := e.affine_.a

def c (e : LCGEngine T) : Word T := e.affine_.c

def m (e : LCGEngine T) : Word T := e.affine_.m

def affine (e : LCGEngine T) : LCGAffineTransform T := e.affine_

def set_a (e : LCGEngine T) (new_a : Word T) : LCGEngine T :=
  { e with affine_ := e.affine_.set_a new_a }

def set_c (e : LCGEngine T) (new_c : Word T) : LCGEngine T :=
  { e with affine_ := e.affine_.set_c new_c }

def set_m (e : LCGEngine T) (new_m : Word T) : LCGEngine T :=
  { e with affine_ := e.affine_.set_m new_m }

def set_affine (e : LCGEngine T) (new_affine : LCGAffineTransform T) : LCGEngine T :=
  { e with affine_ := new_affine }

def set_state (e : LCGEngine T) (new_seed : Word T) : LCGEngine T :=
  { e with state_ := e.modder.apply new_seed.val }

/-- The constant `default_seed`. -/
def default_seed : Word T := cast_T T 1

end LCGEngine

/-- The preset `krc_rand_engine { 1103515245, 12345, 2147483648 }`; `T` is the type
`std::uint_fast32_t` stands for. -/
def krc_rand_engine (T : UIntType) : LCGEngine T :=
  LCGEngine.ctor (cast_T T 1103515245) (cast_T T 12345) (cast_T T 2147483648)
    LCGEngine.default_seed

/-- The preset `minstd_rand_engine { 48271, 0, 2147483647 }`. -/
def minstd_rand_engine (T : UIntType) : LCGEngine T :=
  LCGEngine.ctor (cast_T T 48271) (cast_T T 0) (cast_T T 2147483647) LCGEngine.default_seed

/-- The array `krc_lcg_actual` of the tests. -/
def krc_lcg_actual : List Nat :=
  [1103527590, 377401575, 662824084, 1147902781, 2035015474,
   368800899, 1508029952, 486256185, 1062517886, 267834847]

/-- The helper `get_prediction<step>` of the tests: `value_after_n_steps(i + 1)` for
`i = 0 .. step - 1`. -/
def get_prediction {T : UIntType} (step : Nat) (engine : LCGEngine T) : List Nat :=
  (List.range step).map (fun i => (engine.value_after_n_steps (i + 1)).val)

/-- The helper `get_simulation<step>` of the tests: the values returned by `step` successive
calls of `operator()()` on a copy of the engine. -/
def get_simulation {T : UIntType} : Nat → LCGEngine T → List Nat
  | 0, _ => []
  | step + 1, engine => (engine.call.1).val :: get_simulation step engine.call.2

/-! ## Sequences of calls -/

/-- A call of a mutating member of `LCGEngine`. -/
inductive EngineOp (T : UIntType) where
  | call
  | discard (n : Nat)
  | set_state (new_seed : Word T)
  | set_a (new_a : Word T)
  | set_c (new_c : Word T)
  | set_m (new_m : Word T)
  | set_affine (new_affine : LCGAffineTransform T)

/-- The engine after one call. -/
def EngineOp.run {T : UIntType} : EngineOp T → LCGEngine T → LCGEngine T
  | .call, e => e.step
  | .discard n, e => e.discard n
  | .set_state s, e => e.set_state s
  | .set_a x, e => e.set_a x
  | .set_c x, e => e.set_c x
  | .set_m x, e => e.set_m x
  | .set_affine f, e => e.set_affine f

/-- The engine after a sequence of calls, first call first. -/
def run_all {T : UIntType} : List (EngineOp T) → LCGEngine T → LCGEngine T
  | [], e => e
  | op :: ops, e => run_all ops (op.run e)

/-- The new true modulus of a call of `set_m` or `set_affine` is above the current state;
no condition on the other calls. -/
def EngineOp.keeps_state_in_range {T : UIntType} : EngineOp T → LCGEngine T → Prop
  | .set_m x, e => e.state_.val < true_modulus x
  | .set_affine f, e => e.state_.val < true_modulus f.m
  | _, _ => True

/-- Every call of the sequence satisfies `keeps_state_in_range` at the engine it is made
on. -/
def all_keep_state_in_range {T : UIntType} : List (EngineOp T) → LCGEngine T → Prop
  | [], _ => True
  | op :: ops, e => op.keeps_state_in_range e ∧ all_keep_state_in_range ops (op.run e)

/-- The transforms obtained from the constructor by `set_a`, `set_c`, `operator+=`,
`operator-=`, `compose_assign` / `compose`, `identity()` and `powered(n)`, the binary ones
on transforms of equal stored modulus. -/
inductive Built {T : UIntType} : LCGAffineTransform T → Prop where
  | ctor (a c m : Word T) : Built (LCGAffineTransform.ctor a c m)
  | set_a (f : LCGAffineTransform T) (a : Word T) : Built f → Built (f.set_a a)
  | set_c (f : LCGAffineTransform T) (c : Word T) : Built f → Built (f.set_c c)
  | plus_assign (f rhs : LCGAffineTransform T) : Built f → Built rhs → f.m = rhs.m →
      Built (f.plus_assign rhs)
  | minus_assign (f rhs : LCGAffineTransform T) : Built f → Built rhs → f.m = rhs.m →
      Built (f.minus_assign rhs)
  | compose_assign (f rhs : LCGAffineTransform T) : Built f → Built rhs → f.m = rhs.m →
      Built (f.compose_assign rhs)
  | identity (f : LCGAffineTransform T) : Built f → Built f.identity
  | powered (f : LCGAffineTransform T) (n : Nat) : n < 2 ^ 64 → Built f → Built (f.powered n)

/-! ## double_and_add with counters -/

/-- What a run of the loop of `double_and_add` leaves behind: the result, the value of `n`
when the loop is left, the number of iterations and the number of applications of `op`. -/
structure LoopTrace (α : Type) where
  result : α
  n_left : Nat
  iterations : Nat
  op_calls : Nat

/-- The loop of `double_and_add` with two counters: `iterations` grows by one per pass of the
body, `op_calls` by one per application of `op`. -/
def double_and_add_loop_traced {α : Type} (op : α → α → α) :
    Nat → Nat → α → α → Nat → Nat → LoopTrace α
  | 0, n, result, _, iterations, op_calls => ⟨result, n, iterations, op_calls⟩
  | fuel + 1, n, result, var_elem, iterations, op_calls =>
    if n = 0 then ⟨result, n, iterations, op_calls⟩
    else
      double_and_add_loop_traced op fuel (n / 2)
        (if n % 2 ≠ 0 then op result var_elem else result)
        (op var_elem var_elem)
        (iterations + 1)
        ((if n % 2 ≠ 0 then op_calls + 1 else op_calls) + 1)

/-- The function `double_and_add` with the counters, both starting at 0. -/
def double_and_add_traced {α : Type} (elem : α) (n : Nat) (op : α → α → α) (unit : α) :
    LoopTrace α :=
  double_and_add_loop_traced op 64 n unit elem 0 0

/-- The bit length as the specification words it: 0 for `n = 0`, `floor(log2 n) + 1`
otherwise. -/
def bitlength (n : Nat) : Nat := if n = 0 then 0 else Nat.log2 n + 1

/-- The number of one bits of `n`: the sum of its binary digits. -/
def popcount (n : Nat) : Nat := (Nat.digits 2 n).sum

/-! ## Widths and the true modulus -/

theorem bits_pos (T : UIntType) : 0 < T.bits := by
  cases T <;> decide

theorem two_mul_bits_le_bigger_bits (T : UIntType) : 2 * T.bits ≤ T.bigger_bits := by
  cases T <;> decide

theorem two_pow_bits_pos (T : UIntType) : 0 < 2 ^ T.bits := Nat.pos_pow_of_pos _ (by decide)

theorem sq_bits_le_bigger (T : UIntType) : 2 ^ T.bits * 2 ^ T.bits ≤ 2 ^ T.bigger_bits := by
  rw [← Nat.pow_add]
  exact Nat.pow_le_pow_right (by decide) (by have := two_mul_bits_le_bigger_bits T; omega)

theorem bits_lt_bigger (T : UIntType) : 2 ^ T.bits < 2 ^ T.bigger_bits := by
  apply Nat.pow_lt_pow_right (by decide)
  have := two_mul_bits_le_bigger_bits T
  have := bits_pos T
  omega

namespace UnsignedModder
variable {T : UIntType}

theorem real_m_eq (md : UnsignedModder T) : md.real_m = true_modulus md.m := by
  unfold real_m true_modulus wrap_bigger
  have h1 := two_pow_bits_pos T
  have h2 := bits_lt_bigger T
  by_cases h : md.m.val = 0
  · simp only [h, ne_eq, not_true_eq_false, if_false, if_true]
    rw [Nat.sub_add_cancel h1, Nat.mod_eq_of_lt h2]
  · simp [h]

theorem real_m_pos (md : UnsignedModder T) : 0 < md.real_m := by
  rw [real_m_eq]; unfold true_modulus
  have h1 := two_pow_bits_pos T
  split <;> omega

theorem real_m_le (md : UnsignedModder T) : md.real_m ≤ 2 ^ T.bits := by
  rw [real_m_eq]; unfold true_modulus
  have := md.m.isLt
  split <;> omega

theorem real_m_signed_eq (md : UnsignedModder T) : md.real_m_signed = (md.real_m : Int) := by
  rw [real_m_eq]; unfold real_m_signed true_modulus
  have h1 := two_pow_bits_pos T
  by_cases h : md.m.val = 0
  · simp only [h, ne_eq, not_true_eq_false, if_false, if_true]
    omega
  · simp [h]

theorem apply_val (md : UnsignedModder T) (x : Nat) : (md.apply x).val = x % md.real_m := by
  unfold apply cast_T
  simp only
  apply Nat.mod_eq_of_lt
  exact Nat.lt_of_lt_of_le (Nat.mod_lt _ md.real_m_pos) md.real_m_le


theorem tmod_fixup (x : Int) (M : Nat) (hM : 0 < M) :
    (if Int.tmod x M < 0 then Int.tmod x M + M else Int.tmod x M) = x % (M : Int) := by
  have hM' : (0 : Int) < M := by exact_mod_cast hM
  have hlt := Int.tmod_lt_of_pos x hM'
  have hdef := Int.tmod_add_tdiv x M
  by_cases hneg : Int.tmod x M < 0
  · rw [if_pos hneg]
    have hx : x < 0 := by
      by_contra hx
      have := Int.tmod_nonneg (M : Int) (not_lt.mp hx)
      omega
    have hlow : -(M : Int) < Int.tmod x M := by
      have h1 : Int.tmod (-x) M < M := Int.tmod_lt_of_pos (-x) hM'
      have h2 : Int.tmod (-x) M = -Int.tmod x M := by
        rw [Int.tmod_def, Int.tmod_def, Int.neg_tdiv]; ring
      omega
    have : x = (Int.tmod x M + M) + M * (Int.tdiv x M - 1) := by
      have : M * (Int.tdiv x M - 1) = M * Int.tdiv x M - M := by ring
      omega
    conv_rhs => rw [this]
    rw [Int.add_mul_emod_self_left, Int.emod_eq_of_lt (by omega) (by omega)]
  · rw [if_neg hneg]
    have : x = Int.tmod x M + M * Int.tdiv x M := by omega
    conv_rhs => rw [this]
    rw [Int.add_mul_emod_self_left, Int.emod_eq_of_lt (by omega) (by omega)]

theorem apply_signed_val (md : UnsignedModder T) (x : Int) :
    ((md.apply_signed x).val : Int) = x % (md.real_m : Int) := by
  unfold apply_signed cast_T_signed cast_T
  simp only [real_m_signed_eq]
  rw [tmod_fixup x md.real_m md.real_m_pos]
  have hM' : (0 : Int) < md.real_m := by exact_mod_cast md.real_m_pos
  have h0 := Int.emod_nonneg x (ne_of_gt hM')
  have h1 := Int.emod_lt_of_pos x hM'
  have hle : (md.real_m : Int) ≤ (2 ^ T.bits : Int) := by exact_mod_cast md.real_m_le
  rw [Int.emod_eq_of_lt h0 (by omega)]
  have h2 : (x % (md.real_m : Int)).toNat < 2 ^ T.bits := by
    have : ((x % (md.real_m : Int)).toNat : Int) = x % (md.real_m : Int) := Int.toNat_of_nonneg h0
    have h3 : ((x % (md.real_m : Int)).toNat : Int) < ((2 ^ T.bits : Nat) : Int) := by
      rw [this]; push_cast; omega
    exact_mod_cast h3
  rw [Nat.mod_eq_of_lt h2]
  exact Int.toNat_of_nonneg h0

theorem apply_signed_one (md : UnsignedModder T) : (md.apply_signed 1).val = 1 % md.real_m := by
  have h := apply_signed_val md 1
  have : ((1 : Int) % (md.real_m : Int)) = ((1 % md.real_m : Nat) : Int) := by norm_cast
  rw [this] at h
  exact_mod_cast h

theorem times_mod_val (md : UnsignedModder T) (x y : Word T) :
    (md.times_mod x [y]).val = (x.val * y.val) % md.real_m := by
  unfold times_mod internal_prod_mod internal_prod_mod cast_T wrap_bigger
  simp only [apply_val]
  have hM := md.real_m_pos
  have hle := md.real_m_le
  have hy : y.val % md.real_m < 2 ^ T.bits := Nat.lt_of_lt_of_le (Nat.mod_lt _ hM) hle
  have hprod : x.val * (y.val % md.real_m) < 2 ^ T.bigger_bits :=
    Nat.lt_of_lt_of_le (Nat.mul_lt_mul'' x.isLt hy) (sq_bits_le_bigger T)
  rw [Nat.mod_eq_of_lt hprod, Nat.mul_mod_mod]
  exact Nat.mod_eq_of_lt (Nat.lt_of_lt_of_le (Nat.mod_lt _ hM) hle)

theorem times_plus_no_wrap (x y z : Word T) : x.val * y.val + z.val < 2 ^ T.bigger_bits := by
  have hx := x.isLt
  have hy := y.isLt
  have hz := z.isLt
  have h1 : x.val * y.val ≤ (2 ^ T.bits - 1) * (2 ^ T.bits - 1) :=
    Nat.mul_le_mul (by omega) (by omega)
  have h2 := sq_bits_le_bigger T
  have h3 : (2 ^ T.bits - 1) * (2 ^ T.bits - 1) + (2 ^ T.bits - 1) < 2 ^ T.bits * 2 ^ T.bits := by
    have hp := two_pow_bits_pos T
    obtain ⟨k, hk⟩ : ∃ k, 2 ^ T.bits = k + 1 := ⟨2 ^ T.bits - 1, by omega⟩
    rw [hk]; simp only [Nat.add_sub_cancel]; nlinarith
  omega

theorem times_plus_mod_val (md : UnsignedModder T) (x y z : Word T) :
    (md.times_plus_mod x y z).val = (x.val * y.val + z.val) % md.real_m := by
  unfold times_plus_mod wrap_bigger
  rw [apply_val]
  have h := times_plus_no_wrap x y z
  have h' : x.val * y.val < 2 ^ T.bigger_bits := by omega
  rw [Nat.mod_eq_of_lt h', Nat.mod_eq_of_lt h]

end UnsignedModder

/-! ## Correctness of double_and_add -/

section Fold
variable {α : Type} {P : α → Prop} {op : α → α → α} {unit : α}

theorem n_fold_succ (h : MonoidOn P op unit) {e : α} (he : P e) (k : Nat) :
    n_fold op unit e (k + 1) = op (n_fold op unit e k) e := by
  cases k with
  | zero => simp only [n_fold]; exact (h.unit_op e he).symm
  | succ k => simp only [n_fold]

theorem n_fold_mem (h : MonoidOn P op unit) {e : α} (he : P e) (k : Nat) :
    P (n_fold op unit e k) := by
  induction k with
  | zero => exact h.unit_mem
  | succ k ih => rw [n_fold_succ h he]; exact h.op_mem _ _ ih he

theorem n_fold_comm (h : MonoidOn P op unit) {e : α} (he : P e) (k : Nat) :
    op e (n_fold op unit e k) = op (n_fold op unit e k) e := by
  induction k with
  | zero => simp only [n_fold]; rw [h.op_unit e he, h.unit_op e he]
  | succ k ih =>
    rw [n_fold_succ h he, ← h.assoc _ _ _ he (n_fold_mem h he k) he, ih]

theorem n_fold_add (h : MonoidOn P op unit) {e : α} (he : P e) (p q : Nat) :
    n_fold op unit e (p + q) = op (n_fold op unit e p) (n_fold op unit e q) := by
  induction q with
  | zero => simp only [Nat.add_zero, n_fold]; exact (h.op_unit _ (n_fold_mem h he p)).symm
  | succ q ih =>
    rw [← Nat.add_assoc, n_fold_succ h he, n_fold_succ h he, ih,
      h.assoc _ _ _ (n_fold_mem h he p) (n_fold_mem h he q) he]

theorem n_fold_sq (h : MonoidOn P op unit) {e : α} (he : P e) (k : Nat) :
    n_fold op unit (op e e) k = n_fold op unit e (2 * k) := by
  induction k with
  | zero => simp only [Nat.mul_zero, n_fold]
  | succ k ih =>
    rw [n_fold_succ h (h.op_mem _ _ he he), ih, Nat.mul_succ, n_fold_add h he]
    rfl

theorem n_fold_mul (h : MonoidOn P op unit) {e : α} (he : P e) (p q : Nat) :
    n_fold op unit (n_fold op unit e p) q = n_fold op unit e (p * q) := by
  induction q with
  | zero => simp only [Nat.mul_zero, n_fold]
  | succ q ih =>
    rw [n_fold_succ h (n_fold_mem h he p), ih, Nat.mul_succ, n_fold_add h he]

theorem double_and_add_loop_spec (h : MonoidOn P op unit) :
    ∀ (fuel n : Nat) (result var_elem : α), n < 2 ^ fuel → P result → P var_elem →
      double_and_add_loop op fuel n result var_elem = op result (n_fold op unit var_elem n) := by
  intro fuel
  induction fuel with
  | zero =>
    intro n result var_elem hn hr _
    have : n = 0 := by simpa using hn
    subst this
    simp only [double_and_add_loop, n_fold]
    exact (h.op_unit _ hr).symm
  | succ fuel ih =>
    intro n result var_elem hn hr hv
    unfold double_and_add_loop
    by_cases h0 : n = 0
    · subst h0
      simp only [if_true, n_fold]
      exact (h.op_unit _ hr).symm
    · rw [if_neg h0]
      have hhalf : n / 2 < 2 ^ fuel := by
        rw [Nat.pow_succ] at hn; omega
      have hvv := h.op_mem _ _ hv hv
      by_cases hodd : n % 2 ≠ 0
      · rw [if_pos hodd, ih _ _ _ hhalf (h.op_mem _ _ hr hv) hvv, n_fold_sq h hv,
          h.assoc _ _ _ hr hv (n_fold_mem h hv _), n_fold_comm h hv, ← n_fold_succ h hv]
        congr 2; omega
      · rw [if_neg hodd, ih _ _ _ hhalf hr hvv, n_fold_sq h hv]
        congr 2; omega

theorem double_and_add_spec (h : MonoidOn P op unit) {e : α} (he : P e) (n : Nat)
    (hn : n < 2 ^ 64) : double_and_add e n op unit = n_fold op unit e n := by
  unfold double_and_add
  rw [double_and_add_loop_spec h 64 n unit e hn h.unit_mem he]
  exact h.unit_op _ (n_fold_mem h he n)

/-- The loop reads `var_elem` only through `op`, so it cannot tell apart two elements that
`op` treats alike. -/
theorem double_and_add_loop_congr (fuel n : Nat) (result v v' : α)
    (hr : op result v = op result v') (hv : op v v = op v' v') :
    double_and_add_loop op fuel n result v = double_and_add_loop op fuel n result v' := by
  cases fuel with
  | zero => simp only [double_and_add_loop]
  | succ fuel =>
    unfold double_and_add_loop
    rw [hr, hv]

end Fold

/-! ## The algebra of affine transforms -/

theorem mul_mod_add_mod (a b c M : Nat) : (a * (b % M) + c) % M = (a * b + c) % M := by
  rw [Nat.add_mod, Nat.mul_mod_mod, ← Nat.add_mod]

theorem mod_mul_add_mod (a b c M : Nat) : ((a % M) * b + c % M) % M = (a * b + c) % M := by
  rw [Nat.add_mod_mod, Nat.add_mod, Nat.mod_mul_mod, ← Nat.add_mod]

theorem cast_T_one_val (T : UIntType) : (cast_T T 1).val = 1 := by
  unfold cast_T
  simp only
  apply Nat.mod_eq_of_lt
  exact Nat.one_lt_two_pow (Nat.pos_iff_ne_zero.mp (bits_pos T))

theorem cast_T_zero_val (T : UIntType) : (cast_T T 0).val = 0 := by
  unfold cast_T
  simp

namespace LCGAffineTransform
variable {T : UIntType}

theorem ext_val {f g : LCGAffineTransform T} (hm : f.modder_ = g.modder_)
    (ha : f.a_.val = g.a_.val) (hc : f.c_.val = g.c_.val) : f = g := by
  cases f; cases g
  simp only [mk.injEq]
  exact ⟨hm, Fin.ext ha, Fin.ext hc⟩

theorem compose_modder (f g : LCGAffineTransform T) : (compose f g).modder_ = f.modder_ := rfl

theorem compose_a_val (f g : LCGAffineTransform T) :
    (compose f g).a_.val = (f.a_.val * g.a_.val) % f.modder_.real_m := by
  unfold compose compose_assign
  simp only [UnsignedModder.times_mod_val]

theorem compose_c_val (f g : LCGAffineTransform T) :
    (compose f g).c_.val = (f.a_.val * g.c_.val + f.c_.val) % f.modder_.real_m := by
  unfold compose compose_assign
  simp only [UnsignedModder.times_plus_mod_val]

theorem affine_apply_val (f : LCGAffineTransform T) (x : Word T) :
    (f.apply x).val = (f.a_.val * x.val + f.c_.val) % f.modder_.real_m := by
  unfold apply
  rw [UnsignedModder.times_plus_mod_val]

theorem ctor_modder (a c m : Word T) : (ctor a c m).modder_ = ⟨m⟩ := rfl

theorem ctor_a_val (a c m : Word T) :
    (ctor a c m).a_.val = a.val % (⟨m⟩ : UnsignedModder T).real_m := by
  unfold ctor
  simp only [UnsignedModder.apply_val]

theorem ctor_c_val (a c m : Word T) :
    (ctor a c m).c_.val = c.val % (⟨m⟩ : UnsignedModder T).real_m := by
  unfold ctor
  simp only [UnsignedModder.apply_val]

theorem identity_modder (f : LCGAffineTransform T) : f.identity.modder_ = f.modder_ := rfl

theorem identity_a_val (f : LCGAffineTransform T) :
    f.identity.a_.val = 1 % f.modder_.real_m := by
  unfold identity
  rw [ctor_a_val, cast_T_one_val]

theorem identity_c_val (f : LCGAffineTransform T) : f.identity.c_.val = 0 := by
  unfold identity
  rw [ctor_c_val, cast_T_zero_val, Nat.zero_mod]

theorem ctor_normalized (a c m : Word T) : Normalized ⟨m⟩ (ctor a c m) := by
  refine ⟨rfl, ?_, ?_⟩
  · rw [ctor_a_val]; exact Nat.mod_lt _ (UnsignedModder.real_m_pos _)
  · rw [ctor_c_val]; exact Nat.mod_lt _ (UnsignedModder.real_m_pos _)

theorem compose_normalized (f g : LCGAffineTransform T) : Normalized f.modder_ (compose f g) := by
  refine ⟨rfl, ?_, ?_⟩
  · rw [compose_a_val]; exact Nat.mod_lt _ (UnsignedModder.real_m_pos _)
  · rw [compose_c_val]; exact Nat.mod_lt _ (UnsignedModder.real_m_pos _)

theorem compose_assoc (f g h : LCGAffineTransform T) (hfg : f.modder_ = g.modder_) :
    compose (compose f g) h = compose f (compose g h) := by
  apply ext_val
  · rfl
  · simp only [compose_a_val, compose_modder, ← hfg]
    rw [Nat.mod_mul_mod, Nat.mul_mod_mod, Nat.mul_assoc]
  · simp only [compose_c_val, compose_a_val, compose_modder, ← hfg]
    rw [mod_mul_add_mod, mul_mod_add_mod]
    congr 1; ring

theorem compose_identity_right (f : LCGAffineTransform T) (hf : Normalized f.modder_ f) :
    compose f f.identity = f := by
  obtain ⟨_, ha, hc⟩ := hf
  apply ext_val
  · rfl
  · rw [compose_a_val, identity_a_val, Nat.mul_mod_mod, Nat.mul_one, Nat.mod_eq_of_lt ha]
  · rw [compose_c_val, identity_c_val, Nat.mul_zero, Nat.zero_add, Nat.mod_eq_of_lt hc]

theorem compose_identity_left (f : LCGAffineTransform T) (hf : Normalized f.modder_ f) :
    compose f.identity f = f := by
  obtain ⟨_, ha, hc⟩ := hf
  apply ext_val
  · rfl
  · rw [compose_a_val, identity_a_val, identity_modder, Nat.mod_mul_mod, Nat.one_mul,
      Nat.mod_eq_of_lt ha]
  · rw [compose_c_val, identity_a_val, identity_c_val, identity_modder, Nat.add_zero,
      Nat.mod_mul_mod, Nat.one_mul, Nat.mod_eq_of_lt hc]

theorem identity_eq_of_modder {f g : LCGAffineTransform T} (h : f.modder_ = g.modder_) :
    f.identity = g.identity := by
  unfold identity; rw [h]

theorem monoidOn_compose (f : LCGAffineTransform T) :
    MonoidOn (Normalized f.modder_) (fun lhs rhs => compose lhs rhs) f.identity where
  unit_mem := ctor_normalized _ _ _
  op_mem := fun x y hx _ => by
    have := compose_normalized x y
    rw [hx.1] at this
    exact this
  assoc := fun x y z hx hy _ => compose_assoc x y z (hx.1.trans hy.1.symm)
  unit_op := fun x hx => by
    have h := compose_identity_left x (by rw [hx.1]; exact hx)
    rw [identity_eq_of_modder hx.1] at h
    exact h
  op_unit := fun x hx => by
    have h := compose_identity_right x (by rw [hx.1]; exact hx)
    rw [identity_eq_of_modder hx.1] at h
    exact h

theorem renormalized_modder (f : LCGAffineTransform T) : f.renormalized.modder_ = f.modder_ := rfl

theorem renormalized_normalized (f : LCGAffineTransform T) :
    Normalized f.modder_ f.renormalized := ctor_normalized _ _ _

theorem renormalized_of_normalized (f : LCGAffineTransform T) (hf : Normalized f.modder_ f) :
    f.renormalized = f := by
  obtain ⟨_, ha, hc⟩ := hf
  apply ext_val
  · rfl
  · unfold renormalized; rw [ctor_a_val]; exact Nat.mod_eq_of_lt ha
  · unfold renormalized; rw [ctor_c_val]; exact Nat.mod_eq_of_lt hc

theorem compose_renormalized_right (r f : LCGAffineTransform T) (h : r.modder_ = f.modder_) :
    compose r f = compose r f.renormalized := by
  apply ext_val
  · rfl
  · rw [compose_a_val, compose_a_val]
    unfold renormalized
    rw [ctor_a_val, h, Nat.mul_mod_mod]
  · rw [compose_c_val, compose_c_val]
    unfold renormalized
    rw [ctor_c_val, h, mul_mod_add_mod]

theorem compose_renormalized_self (f : LCGAffineTransform T) :
    compose f f = compose f.renormalized f.renormalized := by
  apply ext_val
  · rfl
  · rw [compose_a_val, compose_a_val, renormalized_modder]
    unfold renormalized
    rw [ctor_a_val, Nat.mul_mod_mod, Nat.mod_mul_mod]
  · rw [compose_c_val, compose_c_val, renormalized_modder]
    unfold renormalized
    rw [ctor_a_val, ctor_c_val, mul_mod_add_mod, mod_mul_add_mod]

end LCGAffineTransform

/-! ## Powers, the engine, modular powers -/

namespace LCGAffineTransform
variable {T : UIntType}

theorem compose_apply (f g : LCGAffineTransform T) (h : f.modder_ = g.modder_) (x : Word T) :
    (compose f g).apply x = f.apply (g.apply x) := by
  apply Fin.ext
  rw [affine_apply_val, affine_apply_val, affine_apply_val, compose_a_val, compose_c_val,
    compose_modder, ← h, mod_mul_add_mod, mul_mod_add_mod]
  congr 1; ring

theorem powered_renormalized (f : LCGAffineTransform T) (n : Nat) :
    f.powered n = f.renormalized.powered n := by
  unfold powered double_and_add
  exact double_and_add_loop_congr 64 n f.identity f f.renormalized
    (compose_renormalized_right _ _ rfl) (compose_renormalized_self f)

theorem powered_eq_n_fold (f : LCGAffineTransform T) (n : Nat) (hn : n < 2 ^ 64) :
    f.powered n = n_fold (fun lhs rhs => compose lhs rhs) f.identity f.renormalized n := by
  rw [powered_renormalized]
  exact double_and_add_spec (monoidOn_compose f) (renormalized_normalized f) n hn

theorem powered_normalized (f : LCGAffineTransform T) (n : Nat) (hn : n < 2 ^ 64) :
    Normalized f.modder_ (f.powered n) := by
  rw [powered_eq_n_fold f n hn]
  exact n_fold_mem (monoidOn_compose f) (renormalized_normalized f) n

theorem apply_renormalized (f : LCGAffineTransform T) (x : Word T) :
    f.renormalized.apply x = f.apply x := by
  apply Fin.ext
  rw [affine_apply_val, affine_apply_val, renormalized_modder]
  unfold renormalized
  rw [ctor_a_val, ctor_c_val, mod_mul_add_mod]

theorem apply_lt (f : LCGAffineTransform T) (x : Word T) :
    (f.apply x).val < f.modder_.real_m := by
  rw [affine_apply_val]; exact Nat.mod_lt _ (UnsignedModder.real_m_pos _)

theorem identity_apply (f : LCGAffineTransform T) (x : Word T) (hx : x.val < f.modder_.real_m) :
    f.identity.apply x = x := by
  apply Fin.ext
  rw [affine_apply_val, identity_a_val, identity_c_val, identity_modder, Nat.add_zero,
    Nat.mod_mul_mod, Nat.one_mul, Nat.mod_eq_of_lt hx]

theorem n_fold_apply (f g : LCGAffineTransform T) (hg : Normalized f.modder_ g) (k : Nat) :
    ∀ x : Word T, x.val < f.modder_.real_m →
      (n_fold (fun lhs rhs => compose lhs rhs) f.identity g k).apply x = g.apply^[k] x := by
  induction k with
  | zero =>
    intro x hx
    simp only [n_fold, Function.iterate_zero, id_eq]
    exact identity_apply f x hx
  | succ k ih =>
    intro x hx
    rw [n_fold_succ (monoidOn_compose f) hg, Function.iterate_succ_apply]
    have hmem := n_fold_mem (monoidOn_compose f) hg k
    show (compose _ g).apply x = _
    rw [compose_apply _ _ (hmem.1.trans hg.1.symm)]
    apply ih
    have := apply_lt g x
    rw [hg.1] at this
    exact this

theorem powered_apply (f : LCGAffineTransform T) (n : Nat) (hn : n < 2 ^ 64) (x : Word T)
    (hx : x.val < f.modder_.real_m) : (f.powered n).apply x = f.apply^[n] x := by
  rw [powered_eq_n_fold f n hn, n_fold_apply f _ (renormalized_normalized f) n x hx]
  congr 1
  funext y
  exact apply_renormalized f y

end LCGAffineTransform

namespace LCGEngine
variable {T : UIntType}

theorem iterate_step (e : LCGEngine T) (n : Nat) :
    step^[n] e = { affine_ := e.affine_, state_ := e.affine_.apply^[n] e.state_ } := by
  induction n generalizing e with
  | zero => rfl
  | succ n ih =>
    rw [Function.iterate_succ_apply, ih, Function.iterate_succ_apply]
    rfl

theorem ctor_affine_state_lt (f : LCGAffineTransform T) (seed : Word T) :
    (ctor_affine f seed).state_.val < f.modder_.real_m := by
  unfold ctor_affine modder LCGAffineTransform.m
  simp only [UnsignedModder.apply_val]
  exact Nat.mod_lt _ (UnsignedModder.real_m_pos _)

end LCGEngine

namespace UnsignedModder
variable {T : UIntType}

theorem monoidOn_times_mod (md : UnsignedModder T) :
    MonoidOn (fun x : Word T => x.val < md.real_m) (fun x y => md.times_mod x [y])
      (md.apply_signed 1) where
  unit_mem := by
    show (md.apply_signed 1).val < md.real_m
    rw [apply_signed_one]; exact Nat.mod_lt _ md.real_m_pos
  op_mem := fun x y _ _ => by
    show (md.times_mod x [y]).val < md.real_m
    rw [times_mod_val]; exact Nat.mod_lt _ md.real_m_pos
  assoc := fun x y z _ _ _ => by
    apply Fin.ext
    simp only [times_mod_val]
    rw [Nat.mod_mul_mod, Nat.mul_mod_mod, Nat.mul_assoc]
  unit_op := fun x hx => by
    apply Fin.ext
    simp only [times_mod_val, apply_signed_one]
    rw [Nat.mod_mul_mod, Nat.one_mul, Nat.mod_eq_of_lt hx]
  op_unit := fun x hx => by
    apply Fin.ext
    simp only [times_mod_val, apply_signed_one]
    rw [Nat.mul_mod_mod, Nat.mul_one, Nat.mod_eq_of_lt hx]

theorem n_fold_times_mod_val (md : UnsignedModder T) (b : Word T) (hb : b.val < md.real_m)
    (k : Nat) :
    (n_fold (fun x y => md.times_mod x [y]) (md.apply_signed 1) b k).val
      = b.val ^ k % md.real_m := by
  induction k with
  | zero => simp only [n_fold, pow_zero]; exact apply_signed_one md
  | succ k ih =>
    rw [n_fold_succ (monoidOn_times_mod md) hb]
    show (md.times_mod _ [b]).val = _
    rw [times_mod_val, ih, Nat.mod_mul_mod, Nat.pow_succ]

theorem pow_mod_val (md : UnsignedModder T) (base : Word T) (expo : Nat) (h : expo < 2 ^ 64) :
    (md.pow_mod base expo).val = base.val ^ expo % md.real_m := by
  have hlt : (md.apply base.val).val < md.real_m := by
    rw [apply_val]; exact Nat.mod_lt _ md.real_m_pos
  have hcongr : md.pow_mod base expo
      = double_and_add (md.apply base.val) expo (fun x y => md.times_mod x [y])
          (md.apply_signed 1) := by
    unfold pow_mod double_and_add
    apply double_and_add_loop_congr
    · apply Fin.ext
      simp only [times_mod_val, apply_val]
      rw [Nat.mul_mod_mod]
    · apply Fin.ext
      simp only [times_mod_val, apply_val]
      rw [Nat.mul_mod_mod, Nat.mod_mul_mod]
  rw [hcongr, double_and_add_spec (monoidOn_times_mod md) hlt expo h,
    n_fold_times_mod_val md _ hlt, apply_val, ← Nat.pow_mod]

end UnsignedModder

/-! ## The claims -/

/-- C1. For every engine built by a constructor, from an affine transform and a seed or from
`a`, `c`, a stored modulus `m` (0 included) and a seed, and every step count `n < 2 ^ 64`,
`value_after_n_steps(n)` is the state reached by calling `operator()()` exactly `n` times. -/
theorem C1_value_after_n_steps_eq_iterated_step {T : UIntType} (affine : LCGAffineTransform T)
    (a c m seed : Word T) (n : Nat) (hn : n < 2 ^ 64) :
    (LCGEngine.ctor_affine affine seed).value_after_n_steps n
      = (LCGEngine.step^[n] (LCGEngine.ctor_affine affine seed)).state ∧
    (LCGEngine.ctor a c m seed).value_after_n_steps n
      = (LCGEngine.step^[n] (LCGEngine.ctor a c m seed)).state := by
  have key : ∀ (f : LCGAffineTransform T),
      (LCGEngine.ctor_affine f seed).value_after_n_steps n
        = (LCGEngine.step^[n] (LCGEngine.ctor_affine f seed)).state := by
    intro f
    rw [LCGEngine.iterate_step]
    unfold LCGEngine.value_after_n_steps LCGEngine.state
    exact LCGAffineTransform.powered_apply f n hn _ (LCGEngine.ctor_affine_state_lt f seed)
  exact ⟨key affine, key _⟩

theorem C1_witness :
    (1000 : Nat) < 2 ^ 64 ∧
    (LCGEngine.ctor_affine
        ((LCGAffineTransform.ctor (cast_T .u64 5) (cast_T .u64 3) (cast_T .u64 0)).set_m
          (cast_T .u64 3))
        (cast_T .u64 1)).value_after_n_steps 1000
      = (LCGEngine.step^[1000] (LCGEngine.ctor_affine
          ((LCGAffineTransform.ctor (cast_T .u64 5) (cast_T .u64 3) (cast_T .u64 0)).set_m
            (cast_T .u64 3))
          (cast_T .u64 1))).state ∧
    (LCGEngine.ctor (cast_T .u64 1103515245) (cast_T .u64 12345) (cast_T .u64 2147483648)
        (cast_T .u64 1)).value_after_n_steps 1000
      = (LCGEngine.step^[1000] (LCGEngine.ctor (cast_T .u64 1103515245) (cast_T .u64 12345)
          (cast_T .u64 2147483648) (cast_T .u64 1))).state :=
  ⟨by decide, C1_value_after_n_steps_eq_iterated_step _ _ _ _ _ 1000 (by decide)⟩

/-- C2. For an associative `op` with two-sided identity `unit` (commutativity is not assumed)
and `n < 2 ^ 64`, `double_and_add(e, n, op, unit)` is the `n`-fold combination of `e`, and it
is `unit` for `n = 0`. -/
theorem C2_double_and_add_eq_n_fold {α : Type} (op : α → α → α) (unit : α)
    (hassoc : ∀ x y z, op (op x y) z = op x (op y z))
    (hleft : ∀ x, op unit x = x) (hright : ∀ x, op x unit = x)
    (e : α) (n : Nat) (hn : n < 2 ^ 64) :
    double_and_add e n op unit = n_fold op unit e n ∧ double_and_add e 0 op unit = unit := by
  have h : MonoidOn (fun _ : α => True) op unit :=
    { unit_mem := trivial
      op_mem := fun _ _ _ _ => trivial
      assoc := fun x y z _ _ _ => hassoc x y z
      unit_op := fun x _ => hleft x
      op_unit := fun x _ => hright x }
  exact ⟨double_and_add_spec h trivial n hn, rfl⟩

theorem C2_witness :
    double_and_add [1, 2] 3 (fun x y : List Nat => x ++ y) [] = [1, 2, 1, 2, 1, 2] ∧
    double_and_add [1, 2] 0 (fun x y : List Nat => x ++ y) [] = [] :=
  C2_double_and_add_eq_n_fold (fun x y : List Nat => x ++ y) []
    (fun x y z => List.append_assoc x y z) (fun x => List.nil_append x)
    (fun x => List.append_nil x) [1, 2] 3 (by decide)

/-- C3. For transforms `f` and `g` with equal stored modulus and every `x`,
`compose(f, g)(x) = f(g(x))`; the result has `a = f.a * g.a mod M`,
`c = (f.a * g.c + f.c) mod M` and the same stored modulus, `M` the true modulus. -/
theorem C3_compose_is_function_composition {T : UIntType} (f g : LCGAffineTransform T)
    (hm : f.m = g.m) (x : Word T) :
    (LCGAffineTransform.compose f g).apply x = f.apply (g.apply x) ∧
    (LCGAffineTransform.compose f g).a.val = (f.a.val * g.a.val) % true_modulus f.m ∧
    (LCGAffineTransform.compose f g).c.val
      = (f.a.val * g.c.val + f.c.val) % true_modulus f.m ∧
    (LCGAffineTransform.compose f g).m = f.m := by
  have hmod : f.modder_ = g.modder_ := by
    cases hf : f.modder_; cases hg : g.modder_
    unfold LCGAffineTransform.m at hm
    rw [hf, hg] at hm
    simp only at hm
    rw [hm]
  refine ⟨LCGAffineTransform.compose_apply f g hmod x, ?_, ?_, rfl⟩
  · show (LCGAffineTransform.compose f g).a_.val = _
    rw [LCGAffineTransform.compose_a_val, UnsignedModder.real_m_eq]; rfl
  · show (LCGAffineTransform.compose f g).c_.val = _
    rw [LCGAffineTransform.compose_c_val, UnsignedModder.real_m_eq]; rfl

theorem C3_witness :
    (LCGAffineTransform.ctor (cast_T .u8 5) (cast_T .u8 3) (cast_T .u8 0)).m
      = (LCGAffineTransform.ctor (cast_T .u8 7) (cast_T .u8 11) (cast_T .u8 0)).m ∧
    (LCGAffineTransform.compose
        (LCGAffineTransform.ctor (cast_T .u8 5) (cast_T .u8 3) (cast_T .u8 0))
        (LCGAffineTransform.ctor (cast_T .u8 7) (cast_T .u8 11) (cast_T .u8 0))).apply
        (cast_T .u8 200)
      = (LCGAffineTransform.ctor (cast_T .u8 5) (cast_T .u8 3) (cast_T .u8 0)).apply
          ((LCGAffineTransform.ctor (cast_T .u8 7) (cast_T .u8 11) (cast_T .u8 0)).apply
            (cast_T .u8 200)) :=
  ⟨rfl, (C3_compose_is_function_composition
    (LCGAffineTransform.ctor (cast_T .u8 5) (cast_T .u8 3) (cast_T .u8 0))
    (LCGAffineTransform.ctor (cast_T .u8 7) (cast_T .u8 11) (cast_T .u8 0)) rfl
    (cast_T .u8 200)).1⟩

/-- C4. For every stored modulus and all `x`, `y`, `z` of type `T`, `times_plus_mod(x, y, z)`
is `(x * y + z) mod M` over the natural numbers, and `x * y + z` is below
`2 ^ bigger_bits`: the double-width intermediate does not wrap. -/
theorem C4_times_plus_mod_exact {T : UIntType} (md : UnsignedModder T) (x y z : Word T) :
    (md.times_plus_mod x y z).val = (x.val * y.val + z.val) % true_modulus md.m ∧
    x.val * y.val + z.val < 2 ^ T.bigger_bits ∧
    (2 ^ T.bits - 1) * (2 ^ T.bits - 1) + (2 ^ T.bits - 1) < 2 ^ T.bigger_bits := by
  refine ⟨?_, UnsignedModder.times_plus_no_wrap x y z, ?_⟩
  · rw [UnsignedModder.times_plus_mod_val, UnsignedModder.real_m_eq]
  · have hp := two_pow_bits_pos T
    exact UnsignedModder.times_plus_no_wrap (T := T) ⟨2 ^ T.bits - 1, by omega⟩
      ⟨2 ^ T.bits - 1, by omega⟩ ⟨2 ^ T.bits - 1, by omega⟩

/-- C5. For every stored modulus, the reduction operator returns the canonical residue:
for an unsigned `x` and for a signed `y` (negative included) the result is below the true
modulus `M` and congruent to the argument modulo `M`; with the sentinel `m = 0`, `2 ^ W`
reduces to 0 and `2 ^ W - 1` to itself. -/
theorem C5_reduction_is_canonical_residue {T : UIntType} (md : UnsignedModder T) (x : Nat)
    (y : Int) :
    ((md.apply x).val < true_modulus md.m ∧
      (md.apply x).val ≡ x [MOD true_modulus md.m]) ∧
    ((md.apply_signed y).val < true_modulus md.m ∧
      ((md.apply_signed y).val : Int) ≡ y [ZMOD (true_modulus md.m : Int)]) ∧
    ((⟨cast_T T 0⟩ : UnsignedModder T).apply (2 ^ T.bits)).val = 0 ∧
    ((⟨cast_T T 0⟩ : UnsignedModder T).apply (2 ^ T.bits - 1)).val = 2 ^ T.bits - 1 ∧
    ((⟨cast_T T 0⟩ : UnsignedModder T).mod (cast_T T (2 ^ T.bits - 1))).val
      = 2 ^ T.bits - 1 := by
  have hpos := md.real_m_pos
  have hp := two_pow_bits_pos T
  have hsent : (⟨cast_T T 0⟩ : UnsignedModder T).real_m = 2 ^ T.bits := by
    rw [UnsignedModder.real_m_eq]
    unfold true_modulus
    rw [if_pos (cast_T_zero_val T)]
  rw [← UnsignedModder.real_m_eq]
  refine ⟨?_, ?_, ?_, ?_, ?_⟩
  · rw [UnsignedModder.apply_val]
    exact ⟨Nat.mod_lt _ hpos, Nat.mod_modEq _ _⟩
  · have h := UnsignedModder.apply_signed_val md y
    have hM : (0 : Int) < md.real_m := by exact_mod_cast hpos
    constructor
    · have h1 := Int.emod_lt_of_pos y hM
      rw [← h] at h1
      exact_mod_cast h1
    · rw [h]
      exact Int.mod_modEq _ _
  · rw [UnsignedModder.apply_val, hsent, Nat.mod_self]
  · rw [UnsignedModder.apply_val, hsent]
    exact Nat.mod_eq_of_lt (by omega)
  · unfold UnsignedModder.mod
    rw [UnsignedModder.apply_val, hsent]
    unfold cast_T
    simp only
    rw [Nat.mod_mod]
    exact Nat.mod_eq_of_lt (by omega)

/-- C6, the code at a failing input. With `T` 64 bits wide and `m = 2147483647`,
`minus_mod(0, 1)` is 15, whereas the canonical residue of `0 - 1` is 2147483646; the
same happens to both coefficients of `f - g`. -/
theorem C6_minus_mod_wraps_before_reducing :
    ((⟨cast_T .u64 2147483647⟩ : UnsignedModder .u64).minus_mod (cast_T _ 0) (cast_T _ 1)).val
      = 15 ∧
    ((0 : Int) - 1) % 2147483647 = 2147483646 ∧
    ((LCGAffineTransform.ctor (cast_T .u64 0) (cast_T _ 0) (cast_T _ 2147483647)).minus
        (LCGAffineTransform.ctor (cast_T .u64 1) (cast_T _ 1) (cast_T _ 2147483647))).a.val
      = 15 ∧
    ((LCGAffineTransform.ctor (cast_T .u64 0) (cast_T _ 0) (cast_T _ 2147483647)).minus
        (LCGAffineTransform.ctor (cast_T .u64 1) (cast_T _ 1) (cast_T _ 2147483647))).c.val
      = 15 := by
  decide

/-- C7. For every transform `f` built by the constructor from any `a`, `c` and stored
modulus `m`, `compose(f, f.identity()) = f` and `compose(f.identity(), f) = f`. -/
theorem C7_compose_identity_laws {T : UIntType} (a c m : Word T) :
    LCGAffineTransform.compose (LCGAffineTransform.ctor a c m)
        (LCGAffineTransform.ctor a c m).identity = LCGAffineTransform.ctor a c m ∧
    LCGAffineTransform.compose (LCGAffineTransform.ctor a c m).identity
        (LCGAffineTransform.ctor a c m) = LCGAffineTransform.ctor a c m :=
  ⟨LCGAffineTransform.compose_identity_right _ (LCGAffineTransform.ctor_normalized a c m),
   LCGAffineTransform.compose_identity_left _ (LCGAffineTransform.ctor_normalized a c m)⟩

/-- C8. For every transform `f` built by the constructor, `f.powered(0) = f.identity()` and
`f.powered(1) = f`. -/
theorem C8_powered_zero_one {T : UIntType} (a c m : Word T) :
    (LCGAffineTransform.ctor a c m).powered 0 = (LCGAffineTransform.ctor a c m).identity ∧
    (LCGAffineTransform.ctor a c m).powered 1 = LCGAffineTransform.ctor a c m := by
  refine ⟨rfl, ?_⟩
  show LCGAffineTransform.compose (LCGAffineTransform.ctor a c m).identity
    (LCGAffineTransform.ctor a c m) = _
  exact LCGAffineTransform.compose_identity_left _ (LCGAffineTransform.ctor_normalized a c m)

/-- C9. For every transform `f` and all `p`, `q` below `2 ^ 64` whose product is below
`2 ^ 64`, `f.powered(p).powered(q) = f.powered(p * q)`. -/
theorem C9_powered_powered {T : UIntType} (f : LCGAffineTransform T) (p q : Nat)
    (hp : p < 2 ^ 64) (hq : q < 2 ^ 64) (hpq : p * q < 2 ^ 64) :
    (f.powered p).powered q = f.powered (p * q) := by
  have hM := LCGAffineTransform.monoidOn_compose f
  have hr := LCGAffineTransform.renormalized_normalized f
  have hnorm := LCGAffineTransform.powered_normalized f p hp
  have hid : (f.powered p).identity = f.identity :=
    LCGAffineTransform.identity_eq_of_modder hnorm.1
  have hren : (f.powered p).renormalized = f.powered p :=
    LCGAffineTransform.renormalized_of_normalized _ (by rw [hnorm.1]; exact hnorm)
  rw [LCGAffineTransform.powered_eq_n_fold (f.powered p) q hq, hid, hren,
    LCGAffineTransform.powered_eq_n_fold f p hp, n_fold_mul hM hr,
    LCGAffineTransform.powered_eq_n_fold f (p * q) hpq]

theorem C9_witness :
    (3 : Nat) < 2 ^ 64 ∧ (5 : Nat) < 2 ^ 64 ∧ 3 * 5 < 2 ^ 64 ∧
    ((LCGAffineTransform.ctor (cast_T .u32 48271) (cast_T .u32 7) (cast_T .u32 2147483647)).powered
        3).powered 5
      = (LCGAffineTransform.ctor (cast_T .u32 48271) (cast_T .u32 7)
          (cast_T .u32 2147483647)).powered (3 * 5) :=
  ⟨by decide, by decide, by decide,
    C9_powered_powered _ 3 5 (by decide) (by decide) (by decide)⟩

/-- C10. For every stored modulus, every base of type `T` (also one not below `M`) and every
exponent `e < 2 ^ 64`, `pow_mod(base, e)` is `base ^ e mod M` over the natural numbers; in
particular `pow_mod(base, 0)` is `1 mod M`. -/
theorem C10_pow_mod_exact {T : UIntType} (md : UnsignedModder T) (base : Word T) (e : Nat)
    (he : e < 2 ^ 64) :
    (md.pow_mod base e).val = base.val ^ e % true_modulus md.m ∧
    (md.pow_mod base 0).val = 1 % true_modulus md.m := by
  rw [← UnsignedModder.real_m_eq]
  refine ⟨UnsignedModder.pow_mod_val md base e he, ?_⟩
  have := UnsignedModder.pow_mod_val md base 0 (by decide)
  simpa using this

theorem C10_witness :
    (100 : Nat) < 2 ^ 64 ∧
    ((⟨cast_T .u8 7⟩ : UnsignedModder .u8).pow_mod (cast_T .u8 250) 100).val
      = (cast_T .u8 250).val ^ 100 % true_modulus (cast_T .u8 7) ∧
    ((⟨cast_T .u8 7⟩ : UnsignedModder .u8).pow_mod (cast_T .u8 250) 0).val
      = 1 % true_modulus (cast_T .u8 7) :=
  ⟨by decide, C10_pow_mod_exact _ _ 100 (by decide)⟩

/-! ## Invariants of the loop, ranges of the coefficients and of the state -/

theorem double_and_add_loop_invariant {α : Type} (op : α → α → α) (Q : α → Prop)
    (hop : ∀ r v, Q r → Q (op r v)) :
    ∀ (fuel n : Nat) (result var_elem : α), Q result →
      Q (double_and_add_loop op fuel n result var_elem) := by
  intro fuel
  induction fuel with
  | zero => intro n result var_elem hr; exact hr
  | succ fuel ih =>
    intro n result var_elem hr
    unfold double_and_add_loop
    by_cases h0 : n = 0
    · rw [if_pos h0]; exact hr
    · rw [if_neg h0]
      apply ih
      by_cases hodd : n % 2 ≠ 0
      · rw [if_pos hodd]; exact hop _ _ hr
      · rw [if_neg hodd]; exact hr

theorem modder_real_m_eq_true_modulus {T : UIntType} (f : LCGAffineTransform T) :
    f.modder_.real_m = true_modulus f.m := UnsignedModder.real_m_eq f.modder_

theorem plus_mod_val_lt {T : UIntType} (md : UnsignedModder T) (x : Word T)
    (tail : List (Word T)) : (md.plus_mod x tail).val < md.real_m := by
  unfold UnsignedModder.plus_mod
  rw [UnsignedModder.apply_val]
  exact Nat.mod_lt _ md.real_m_pos

theorem minus_mod_val_lt {T : UIntType} (md : UnsignedModder T) (x y : Word T) :
    (md.minus_mod x y).val < md.real_m := by
  unfold UnsignedModder.minus_mod
  rw [UnsignedModder.apply_val]
  exact Nat.mod_lt _ md.real_m_pos

theorem powered_normalized_any {T : UIntType} (f : LCGAffineTransform T) (n : Nat) :
    LCGAffineTransform.Normalized f.modder_ (f.powered n) := by
  unfold LCGAffineTransform.powered double_and_add
  apply double_and_add_loop_invariant _ (LCGAffineTransform.Normalized f.modder_)
  · intro r v hr
    have h := LCGAffineTransform.compose_normalized r v
    rw [hr.1] at h
    exact h
  · exact LCGAffineTransform.ctor_normalized _ _ _

theorem built_normalized {T : UIntType} (f : LCGAffineTransform T) (h : Built f) :
    LCGAffineTransform.Normalized f.modder_ f := by
  induction h with
  | ctor a c m => exact LCGAffineTransform.ctor_normalized a c m
  | set_a f a _ ih =>
    refine ⟨rfl, ?_, ih.2.2⟩
    show (f.modder_.apply a.val).val < f.modder_.real_m
    rw [UnsignedModder.apply_val]; exact Nat.mod_lt _ (UnsignedModder.real_m_pos _)
  | set_c f c _ ih =>
    refine ⟨rfl, ih.2.1, ?_⟩
    show (f.modder_.apply c.val).val < f.modder_.real_m
    rw [UnsignedModder.apply_val]; exact Nat.mod_lt _ (UnsignedModder.real_m_pos _)
  | plus_assign f rhs _ _ _ _ _ =>
    exact ⟨rfl, plus_mod_val_lt _ _ _, plus_mod_val_lt _ _ _⟩
  | minus_assign f rhs _ _ _ _ _ =>
    exact ⟨rfl, minus_mod_val_lt _ _ _, minus_mod_val_lt _ _ _⟩
  | compose_assign f rhs _ _ _ _ _ => exact LCGAffineTransform.compose_normalized f rhs
  | identity f _ _ => exact LCGAffineTransform.ctor_normalized _ _ _
  | powered f n _ _ _ =>
    have h := powered_normalized_any f n
    rw [h.1]
    exact h

/-- The state of the engine is below the true modulus of its transform. -/
theorem inv_run {T : UIntType} (op : EngineOp T) (e : LCGEngine T)
    (hinv : e.state_.val < e.affine_.modder_.real_m) (hop : op.keeps_state_in_range e) :
    (op.run e).state_.val < (op.run e).affine_.modder_.real_m := by
  cases op with
  | call => exact LCGAffineTransform.apply_lt e.affine_ e.state_
  | discard n =>
    show ((e.affine_.powered n).apply e.state_).val < e.affine_.modder_.real_m
    have h := LCGAffineTransform.apply_lt (e.affine_.powered n) e.state_
    rw [(powered_normalized_any e.affine_ n).1] at h
    exact h
  | set_state s =>
    show (e.affine_.modder_.apply s.val).val < e.affine_.modder_.real_m
    rw [UnsignedModder.apply_val]; exact Nat.mod_lt _ (UnsignedModder.real_m_pos _)
  | set_a x => exact hinv
  | set_c x => exact hinv
  | set_m x =>
    show e.state_.val < (⟨x⟩ : UnsignedModder T).real_m
    rw [UnsignedModder.real_m_eq]; exact hop
  | set_affine f =>
    show e.state_.val < f.modder_.real_m
    rw [modder_real_m_eq_true_modulus]; exact hop

theorem inv_run_all {T : UIntType} (ops : List (EngineOp T)) :
    ∀ e : LCGEngine T, e.state_.val < e.affine_.modder_.real_m →
      all_keep_state_in_range ops e →
      (run_all ops e).state_.val < (run_all ops e).affine_.modder_.real_m := by
  induction ops with
  | nil => intro e hinv _; exact hinv
  | cons op ops ih =>
    intro e hinv hall
    exact ih (op.run e) (inv_run op e hinv hall.1) hall.2

theorem max_val {T : UIntType} (f : LCGAffineTransform T) :
    f.max.val = f.modder_.real_m - 1 := by
  rw [UnsignedModder.real_m_eq]
  unfold LCGAffineTransform.max true_modulus cast_T
  simp only
  by_cases h0 : f.modder_.m.val = 0
  · rw [if_pos h0, h0]
    cases T <;> rfl
  · rw [if_neg h0]
    have hlt := f.modder_.m.isLt
    have hle : 2 ^ T.bits ≤ 2 ^ T.promoted_bits := by
      apply Nat.pow_le_pow_right (by decide)
      unfold UIntType.promoted_bits
      split <;> omega
    have hpos : 0 < 2 ^ T.promoted_bits := Nat.pos_pow_of_pos _ (by decide)
    have h1 : f.modder_.m.val + 2 ^ T.promoted_bits - 1
        = (f.modder_.m.val - 1) + 2 ^ T.promoted_bits := by omega
    have h2 : (f.modder_.m.val - 1) % 2 ^ T.promoted_bits = f.modder_.m.val - 1 :=
      Nat.mod_eq_of_lt (by omega)
    rw [h1, Nat.add_mod_right, h2]
    exact Nat.mod_eq_of_lt (by omega)

/-! ## The claims on the engine, the range and the presets -/

/-- C11, as stated, fails: after one call of `operator()()` and `set_m(2147483647)` on the
64-bit engine with `a = 6364136223846793005`, `c = 1`, `m = 0`, seed 1, the state is
6364136223846793006, not below the true modulus 2147483647. -/
theorem C11_counterexample_set_m_keeps_state :
    ¬ ((run_all [EngineOp.call, EngineOp.set_m (cast_T .u64 2147483647)]
          (LCGEngine.ctor (cast_T .u64 6364136223846793005) (cast_T .u64 1) (cast_T .u64 0)
            (cast_T .u64 1))).state.val
        < true_modulus
            (run_all [EngineOp.call, EngineOp.set_m (cast_T .u64 2147483647)]
              (LCGEngine.ctor (cast_T .u64 6364136223846793005) (cast_T .u64 1)
                (cast_T .u64 0) (cast_T .u64 1))).m) := by
  decide

/-- C11, amended. For every engine reachable from a constructor by a finite sequence of
`operator()()`, `discard(n)`, `set_state`, `set_a`, `set_c` calls and of `set_m` and
`set_affine` calls whose new true modulus is above the state at the time of the call,
`state()` is below the current true modulus. -/
theorem C11_state_below_true_modulus {T : UIntType} (affine : LCGAffineTransform T)
    (seed : Word T) (ops : List (EngineOp T))
    (h : all_keep_state_in_range ops (LCGEngine.ctor_affine affine seed)) :
    (run_all ops (LCGEngine.ctor_affine affine seed)).state.val
      < true_modulus (run_all ops (LCGEngine.ctor_affine affine seed)).m := by
  have h1 := inv_run_all ops (LCGEngine.ctor_affine affine seed)
    (LCGEngine.ctor_affine_state_lt affine seed) h
  rw [modder_real_m_eq_true_modulus] at h1
  exact h1

theorem C11_witness :
    all_keep_state_in_range
      [EngineOp.call, EngineOp.discard 1000, EngineOp.set_a (cast_T .u8 9),
       EngineOp.set_m (cast_T .u8 200), EngineOp.set_state (cast_T .u8 250),
       EngineOp.set_c (cast_T .u8 255), EngineOp.call]
      (LCGEngine.ctor_affine (LCGAffineTransform.ctor (cast_T .u8 5) (cast_T .u8 3)
        (cast_T .u8 100)) (cast_T .u8 77)) ∧
    (run_all
      [EngineOp.call, EngineOp.discard 1000, EngineOp.set_a (cast_T .u8 9),
       EngineOp.set_m (cast_T .u8 200), EngineOp.set_state (cast_T .u8 250),
       EngineOp.set_c (cast_T .u8 255), EngineOp.call]
      (LCGEngine.ctor_affine (LCGAffineTransform.ctor (cast_T .u8 5) (cast_T .u8 3)
        (cast_T .u8 100)) (cast_T .u8 77))).state.val
      < true_modulus (run_all
      [EngineOp.call, EngineOp.discard 1000, EngineOp.set_a (cast_T .u8 9),
       EngineOp.set_m (cast_T .u8 200), EngineOp.set_state (cast_T .u8 250),
       EngineOp.set_c (cast_T .u8 255), EngineOp.call]
      (LCGEngine.ctor_affine (LCGAffineTransform.ctor (cast_T .u8 5) (cast_T .u8 3)
        (cast_T .u8 100)) (cast_T .u8 77))).m :=
  have hall : all_keep_state_in_range
      [EngineOp.call, EngineOp.discard 1000, EngineOp.set_a (cast_T .u8 9),
       EngineOp.set_m (cast_T .u8 200), EngineOp.set_state (cast_T .u8 250),
       EngineOp.set_c (cast_T .u8 255), EngineOp.call]
      (LCGEngine.ctor_affine (LCGAffineTransform.ctor (cast_T .u8 5) (cast_T .u8 3)
        (cast_T .u8 100)) (cast_T .u8 77)) :=
    ⟨trivial, trivial, trivial, by change _ < _; decide, trivial, trivial, trivial, trivial⟩
  ⟨hall, C11_state_below_true_modulus _ _ _ hall⟩

/-- C12. For every engine built by a constructor and every `n < 2 ^ 64`, the engine after
`discard(n)` equals, in `a`, `c`, `m` and state, the engine after `n` calls of
`operator()()`. -/
theorem C12_discard_eq_iterated_step {T : UIntType} (affine : LCGAffineTransform T)
    (a c m seed : Word T) (n : Nat) (hn : n < 2 ^ 64) :
    (LCGEngine.ctor_affine affine seed).discard n
      = LCGEngine.step^[n] (LCGEngine.ctor_affine affine seed) ∧
    (LCGEngine.ctor a c m seed).discard n
      = LCGEngine.step^[n] (LCGEngine.ctor a c m seed) := by
  have key : ∀ (f : LCGAffineTransform T),
      (LCGEngine.ctor_affine f seed).discard n
        = LCGEngine.step^[n] (LCGEngine.ctor_affine f seed) := by
    intro f
    rw [LCGEngine.iterate_step]
    unfold LCGEngine.discard LCGEngine.value_after_n_steps
    congr 1
    exact LCGAffineTransform.powered_apply f n hn _ (LCGEngine.ctor_affine_state_lt f seed)
  exact ⟨key affine, key _⟩

theorem C12_witness :
    (1000 : Nat) < 2 ^ 64 ∧
    (LCGEngine.ctor_affine
        ((LCGAffineTransform.ctor (cast_T .u64 5) (cast_T .u64 3) (cast_T .u64 0)).set_m
          (cast_T .u64 3))
        (cast_T .u64 1)).discard 1000
      = LCGEngine.step^[1000] (LCGEngine.ctor_affine
          ((LCGAffineTransform.ctor (cast_T .u64 5) (cast_T .u64 3) (cast_T .u64 0)).set_m
            (cast_T .u64 3))
          (cast_T .u64 1)) ∧
    (LCGEngine.ctor (cast_T .u64 48271) (cast_T .u64 0) (cast_T .u64 2147483647)
        (cast_T .u64 1)).discard 1000
      = LCGEngine.step^[1000] (LCGEngine.ctor (cast_T .u64 48271) (cast_T .u64 0)
          (cast_T .u64 2147483647) (cast_T .u64 1)) :=
  ⟨by decide, C12_discard_eq_iterated_step _ _ _ _ _ 1000 (by decide)⟩

/-- C13. For every transform `f` built by the constructor with stored modulus `m`, `f.min()`
is 1 if `f.c() == 0` and 0 otherwise, and `f.max()` is `M - 1`: `m - 1` for `m != 0` and
`2 ^ W - 1` for the sentinel. -/
theorem C13_min_max_values {T : UIntType} (a c m : Word T) :
    (LCGAffineTransform.ctor a c m).min.val
      = (if (LCGAffineTransform.ctor a c m).c.val = 0 then 1 else 0) ∧
    (LCGAffineTransform.ctor a c m).max.val = true_modulus m - 1 ∧
    (LCGAffineTransform.ctor a c m).max.val
      = (if m.val = 0 then 2 ^ T.bits - 1 else m.val - 1) := by
  have hmax : (LCGAffineTransform.ctor a c m).max.val = true_modulus m - 1 := by
    rw [max_val, UnsignedModder.real_m_eq]; rfl
  refine ⟨?_, hmax, ?_⟩
  · unfold LCGAffineTransform.min LCGAffineTransform.c
    split
    · exact cast_T_one_val T
    · exact cast_T_zero_val T
  · rw [hmax]; unfold true_modulus; split <;> rfl

/-- With a zero increment and a multiplier coprime to the true modulus, one step maps a
nonzero residue to a nonzero residue. -/
theorem apply_ne_zero_of_coprime {T : UIntType} (f : LCGAffineTransform T)
    (hc : f.c_.val = 0) (hg : Nat.gcd f.a_.val f.modder_.real_m = 1) (x : Word T)
    (hlt : x.val < f.modder_.real_m) (hx : x.val ≠ 0) : (f.apply x).val ≠ 0 := by
  rw [LCGAffineTransform.affine_apply_val, hc, Nat.add_zero]
  intro h0
  have hdvd : f.modder_.real_m ∣ f.a_.val * x.val := Nat.dvd_of_mod_eq_zero h0
  have hcop : Nat.Coprime f.modder_.real_m f.a_.val := by
    unfold Nat.Coprime
    rw [Nat.gcd_comm]
    exact hg
  have hdx : f.modder_.real_m ∣ x.val :=
    hcop.dvd_of_dvd_mul_left hdvd
  have := Nat.le_of_dvd (Nat.pos_of_ne_zero hx) hdx
  omega

theorem iterate_apply_ne_zero_of_coprime {T : UIntType} (f : LCGAffineTransform T)
    (hc : f.c_.val = 0) (hg : Nat.gcd f.a_.val f.modder_.real_m = 1) (k : Nat) :
    ∀ x : Word T, x.val < f.modder_.real_m → x.val ≠ 0 →
      (f.apply^[k] x).val < f.modder_.real_m ∧ (f.apply^[k] x).val ≠ 0 := by
  induction k with
  | zero => intro x hlt hx; exact ⟨hlt, hx⟩
  | succ k ih =>
    intro x hlt hx
    rw [Function.iterate_succ_apply]
    exact ih (f.apply x) (LCGAffineTransform.apply_lt f x)
      (apply_ne_zero_of_coprime f hc hg x hlt hx)

/-- C14, as stated, fails. The 64-bit engine with `a = 48271`, `c = 0`, `m = 2147483647` and
seed 0 returns 0 from its first `operator()()`, while `affine().min()` is 1; the engine with
`a = 65536`, `c = 0`, `m = 2147483648` and seed 1 returns 0 from its second call. -/
theorem C14_counterexample_zero_below_min :
    ¬ ((LCGEngine.ctor (cast_T .u64 48271) (cast_T .u64 0) (cast_T .u64 2147483647)
          (cast_T .u64 0)).affine.min.val
        ≤ (LCGEngine.ctor (cast_T .u64 48271) (cast_T .u64 0) (cast_T .u64 2147483647)
            (cast_T .u64 0)).call.1.val ∧
      (LCGEngine.ctor (cast_T .u64 48271) (cast_T .u64 0) (cast_T .u64 2147483647)
          (cast_T .u64 0)).call.1.val
        ≤ (LCGEngine.ctor (cast_T .u64 48271) (cast_T .u64 0) (cast_T .u64 2147483647)
            (cast_T .u64 0)).affine.max.val) ∧
    ¬ ((LCGEngine.ctor (cast_T .u64 65536) (cast_T .u64 0) (cast_T .u64 2147483648)
          (cast_T .u64 1)).affine.min.val
        ≤ (LCGEngine.ctor (cast_T .u64 65536) (cast_T .u64 0) (cast_T .u64 2147483648)
            (cast_T .u64 1)).step.call.1.val ∧
      (LCGEngine.ctor (cast_T .u64 65536) (cast_T .u64 0) (cast_T .u64 2147483648)
          (cast_T .u64 1)).step.call.1.val
        ≤ (LCGEngine.ctor (cast_T .u64 65536) (cast_T .u64 0) (cast_T .u64 2147483648)
            (cast_T .u64 1)).affine.max.val) := by
  decide

/-- C14, amended. For every engine built by a constructor and every number `k` of earlier
steps, the value returned by the next `operator()()` is at most `affine().max()`; it is at
least `affine().min()` when `c() != 0`, and also when `a()` is coprime to the true modulus
and the state the constructor stored is not 0. -/
theorem C14_outputs_within_min_and_max {T : UIntType}
    (affine : LCGAffineTransform T) (seed : Word T) (k : Nat) :
    (LCGEngine.step^[k] (LCGEngine.ctor_affine affine seed)).call.1.val
      ≤ (LCGEngine.ctor_affine affine seed).affine.max.val ∧
    (((LCGEngine.ctor_affine affine seed).c.val ≠ 0 ∨
        (Nat.gcd (LCGEngine.ctor_affine affine seed).a.val
            (true_modulus (LCGEngine.ctor_affine affine seed).m) = 1 ∧
          (LCGEngine.ctor_affine affine seed).state.val ≠ 0)) →
      (LCGEngine.ctor_affine affine seed).affine.min.val
        ≤ (LCGEngine.step^[k] (LCGEngine.ctor_affine affine seed)).call.1.val) := by
  have hv : (LCGEngine.step^[k] (LCGEngine.ctor_affine affine seed)).call.1
      = affine.apply (affine.apply^[k] (LCGEngine.ctor_affine affine seed).state_) := by
    rw [LCGEngine.iterate_step]; rfl
  have hs := LCGEngine.ctor_affine_state_lt affine seed
  have hlt := LCGAffineTransform.apply_lt affine
    (affine.apply^[k] (LCGEngine.ctor_affine affine seed).state_)
  rw [hv]
  constructor
  · show (affine.apply _).val ≤ affine.max.val
    rw [max_val]
    omega
  · show (affine.c_.val ≠ 0 ∨
        (Nat.gcd affine.a_.val (true_modulus affine.m) = 1 ∧
          (LCGEngine.ctor_affine affine seed).state_.val ≠ 0)) →
      affine.min.val ≤ (affine.apply _).val
    intro h
    unfold LCGAffineTransform.min
    by_cases hc : affine.c_.val = 0
    · rw [if_pos hc, cast_T_one_val]
      rcases h with h | ⟨hg, h0⟩
      · exact absurd hc h
      · rw [← modder_real_m_eq_true_modulus] at hg
        obtain ⟨hklt, hk0⟩ := iterate_apply_ne_zero_of_coprime affine hc hg k _ hs h0
        have := apply_ne_zero_of_coprime affine hc hg _ hklt hk0
        omega
    · rw [if_neg hc, cast_T_zero_val]
      exact Nat.zero_le _

theorem C14_witness :
    ((minstd_rand_engine .u64).c.val ≠ 0 ∨
      (Nat.gcd (minstd_rand_engine .u64).a.val (true_modulus (minstd_rand_engine .u64).m) = 1 ∧
        (minstd_rand_engine .u64).state.val ≠ 0)) ∧
    (minstd_rand_engine .u64).affine.min.val
      ≤ (LCGEngine.step^[1000] (minstd_rand_engine .u64)).call.1.val ∧
    (LCGEngine.step^[1000] (minstd_rand_engine .u64)).call.1.val
      ≤ (minstd_rand_engine .u64).affine.max.val :=
  have hcond : ((minstd_rand_engine .u64).c.val ≠ 0 ∨
      (Nat.gcd (minstd_rand_engine .u64).a.val (true_modulus (minstd_rand_engine .u64).m) = 1 ∧
        (minstd_rand_engine .u64).state.val ≠ 0)) := Or.inr ⟨by decide, by decide⟩
  ⟨hcond,
    (C14_outputs_within_min_and_max (LCGAffineTransform.ctor (cast_T .u64 48271)
      (cast_T .u64 0) (cast_T .u64 2147483647)) LCGEngine.default_seed 1000).2 hcond,
    (C14_outputs_within_min_and_max (LCGAffineTransform.ctor (cast_T .u64 48271)
      (cast_T .u64 0) (cast_T .u64 2147483647)) LCGEngine.default_seed 1000).1⟩

/-- C15. For `krc_rand_engine` (`a = 1103515245`, `c = 12345`, `m = 2 ^ 31`, seed 1), with
`std::uint_fast32_t` 64 or 32 bits wide, the `i`-th output of `operator()()` and
`value_after_n_steps(i)` for `i = 1 .. 10` are the ten values of `krc_lcg_actual`. -/
theorem C15_krc_rand_first_ten :
    ((krc_rand_engine .u64).a.val = 1103515245 ∧ (krc_rand_engine .u64).c.val = 12345 ∧
      (krc_rand_engine .u64).m.val = 2 ^ 31 ∧ (krc_rand_engine .u64).state.val = 1) ∧
    get_simulation 10 (krc_rand_engine .u64) = krc_lcg_actual ∧
    get_prediction 10 (krc_rand_engine .u64) = krc_lcg_actual ∧
    get_simulation 10 (krc_rand_engine .u32) = krc_lcg_actual ∧
    get_prediction 10 (krc_rand_engine .u32) = krc_lcg_actual ∧
    krc_lcg_actual = [1103527590, 377401575, 662824084, 1147902781, 2035015474,
      368800899, 1508029952, 486256185, 1062517886, 267834847] := by
  decide

/-- C16. For `minstd_rand_engine` (`a = 48271`, `c = 0`, `m = 2147483647`, seed 1), with
`std::uint_fast32_t` 64 or 32 bits wide, `value_after_n_steps(10000)` is 399268537. -/
theorem C16_minstd_rand_ten_thousand :
    ((minstd_rand_engine .u64).a.val = 48271 ∧ (minstd_rand_engine .u64).c.val = 0 ∧
      (minstd_rand_engine .u64).m.val = 2147483647 ∧
      (minstd_rand_engine .u64).state.val = 1) ∧
    ((minstd_rand_engine .u64).value_after_n_steps 10000).val = 399268537 ∧
    ((minstd_rand_engine .u32).value_after_n_steps 10000).val = 399268537 := by
  decide

/-- C17. For every transform obtained from the constructor by `set_a`, `set_c`,
`operator+=`, `operator-=`, `compose_assign` / `compose`, `identity()` and `powered(n)`, the
binary ones on transforms of equal stored modulus, `a()` and `c()` are below the true
modulus. -/
theorem C17_coefficients_below_true_modulus {T : UIntType} (f : LCGAffineTransform T)
    (h : Built f) : f.a.val < true_modulus f.m ∧ f.c.val < true_modulus f.m := by
  have hn := built_normalized f h
  rw [← modder_real_m_eq_true_modulus]
  exact ⟨hn.2.1, hn.2.2⟩

theorem C17_witness :
    Built ((((LCGAffineTransform.ctor (cast_T .u8 250) (cast_T .u8 251) (cast_T .u8 7)).set_a
        (cast_T .u8 99)).minus_assign
        ((LCGAffineTransform.ctor (cast_T .u8 1) (cast_T .u8 2)
          (cast_T .u8 7)).powered 5)).compose_assign
        (LCGAffineTransform.ctor (cast_T .u8 3) (cast_T .u8 4) (cast_T .u8 7)).identity) ∧
    ((((LCGAffineTransform.ctor (cast_T .u8 250) (cast_T .u8 251) (cast_T .u8 7)).set_a
        (cast_T .u8 99)).minus_assign
        ((LCGAffineTransform.ctor (cast_T .u8 1) (cast_T .u8 2)
          (cast_T .u8 7)).powered 5)).compose_assign
        (LCGAffineTransform.ctor (cast_T .u8 3) (cast_T .u8 4) (cast_T .u8 7)).identity).a.val
      < true_modulus
        ((((LCGAffineTransform.ctor (cast_T .u8 250) (cast_T .u8 251) (cast_T .u8 7)).set_a
        (cast_T .u8 99)).minus_assign
        ((LCGAffineTransform.ctor (cast_T .u8 1) (cast_T .u8 2)
          (cast_T .u8 7)).powered 5)).compose_assign
        (LCGAffineTransform.ctor (cast_T .u8 3) (cast_T .u8 4) (cast_T .u8 7)).identity).m ∧
    ((((LCGAffineTransform.ctor (cast_T .u8 250) (cast_T .u8 251) (cast_T .u8 7)).set_a
        (cast_T .u8 99)).minus_assign
        ((LCGAffineTransform.ctor (cast_T .u8 1) (cast_T .u8 2)
          (cast_T .u8 7)).powered 5)).compose_assign
        (LCGAffineTransform.ctor (cast_T .u8 3) (cast_T .u8 4) (cast_T .u8 7)).identity).c.val
      < true_modulus
        ((((LCGAffineTransform.ctor (cast_T .u8 250) (cast_T .u8 251) (cast_T .u8 7)).set_a
        (cast_T .u8 99)).minus_assign
        ((LCGAffineTransform.ctor (cast_T .u8 1) (cast_T .u8 2)
          (cast_T .u8 7)).powered 5)).compose_assign
        (LCGAffineTransform.ctor (cast_T .u8 3) (cast_T .u8 4) (cast_T .u8 7)).identity).m :=
  have hb : Built ((((LCGAffineTransform.ctor (cast_T .u8 250) (cast_T .u8 251)
        (cast_T .u8 7)).set_a (cast_T .u8 99)).minus_assign
        ((LCGAffineTransform.ctor (cast_T .u8 1) (cast_T .u8 2)
          (cast_T .u8 7)).powered 5)).compose_assign
        (LCGAffineTransform.ctor (cast_T .u8 3) (cast_T .u8 4) (cast_T .u8 7)).identity) :=
    Built.compose_assign _ _
      (Built.minus_assign _ _ (Built.set_a _ _ (Built.ctor _ _ _))
        (Built.powered _ 5 (by decide) (Built.ctor _ _ _)) (by decide))
      (Built.identity _ (Built.ctor _ _ _)) (by decide)
  ⟨hb, C17_coefficients_below_true_modulus _ hb⟩

/-- C18. For every transform `f` and every new stored modulus, after `set_m` the accessor
`m()` returns the new modulus and `a()`, `c()` return what they returned before: the stored
coefficients are not reduced modulo the new modulus. -/
theorem C18_set_m_keeps_coefficients {T : UIntType} (f : LCGAffineTransform T)
    (new_m : Word T) :
    (f.set_m new_m).m = new_m ∧ (f.set_m new_m).a = f.a ∧ (f.set_m new_m).c = f.c :=
  ⟨rfl, rfl, rfl⟩

/-- C19. For every stored modulus `m`, the true modulus `real_m` satisfies
`1 <= real_m <= 2 ^ W`, with `real_m = 2 ^ W` exactly when `m == 0`; so the divisor of `%`,
in the unsigned and in the signed reduction operator through which every modular operation
goes, is not zero. -/
theorem C19_real_m_positive {T : UIntType} (md : UnsignedModder T) :
    1 ≤ md.real_m ∧ md.real_m ≤ 2 ^ T.bits ∧ (md.real_m = 2 ^ T.bits ↔ md.m.val = 0) ∧
    md.real_m ≠ 0 ∧ md.real_m_signed ≠ 0 ∧ md.real_m_signed = (md.real_m : Int) ∧
    md.real_m = true_modulus md.m := by
  have hpos := md.real_m_pos
  have hle := md.real_m_le
  have heq := md.real_m_eq
  have hlt := md.m.isLt
  refine ⟨hpos, hle, ?_, by omega, ?_, md.real_m_signed_eq, heq⟩
  · rw [heq]; unfold true_modulus
    split <;> omega
  · rw [md.real_m_signed_eq]; omega

/-- C20. For every transform `f` and all `p`, `q` with `p + q < 2 ^ 64`,
`compose(f.powered(p), f.powered(q))` and `compose(f.powered(q), f.powered(p))` are both
`f.powered(p + q)`. -/
theorem C20_powers_add_and_commute {T : UIntType} (f : LCGAffineTransform T) (p q : Nat)
    (h : p + q < 2 ^ 64) :
    LCGAffineTransform.compose (f.powered p) (f.powered q) = f.powered (p + q) ∧
    LCGAffineTransform.compose (f.powered q) (f.powered p) = f.powered (p + q) := by
  have hM := LCGAffineTransform.monoidOn_compose f
  have hr := LCGAffineTransform.renormalized_normalized f
  have hp : p < 2 ^ 64 := by omega
  have hq : q < 2 ^ 64 := by omega
  rw [LCGAffineTransform.powered_eq_n_fold f p hp, LCGAffineTransform.powered_eq_n_fold f q hq,
    LCGAffineTransform.powered_eq_n_fold f (p + q) h]
  constructor
  · exact (n_fold_add hM hr p q).symm
  · rw [Nat.add_comm p q]
    exact (n_fold_add hM hr q p).symm

theorem C20_witness :
    3 + 4 < 2 ^ 64 ∧
    LCGAffineTransform.compose
        ((LCGAffineTransform.ctor (cast_T .u32 214013) (cast_T .u32 2531011)
          (cast_T .u32 2147483648)).powered 3)
        ((LCGAffineTransform.ctor (cast_T .u32 214013) (cast_T .u32 2531011)
          (cast_T .u32 2147483648)).powered 4)
      = (LCGAffineTransform.ctor (cast_T .u32 214013) (cast_T .u32 2531011)
          (cast_T .u32 2147483648)).powered (3 + 4) ∧
    LCGAffineTransform.compose
        ((LCGAffineTransform.ctor (cast_T .u32 214013) (cast_T .u32 2531011)
          (cast_T .u32 2147483648)).powered 4)
        ((LCGAffineTransform.ctor (cast_T .u32 214013) (cast_T .u32 2531011)
          (cast_T .u32 2147483648)).powered 3)
      = (LCGAffineTransform.ctor (cast_T .u32 214013) (cast_T .u32 2531011)
          (cast_T .u32 2147483648)).powered (3 + 4) :=
  ⟨by decide, C20_powers_add_and_commute _ 3 4 (by decide)⟩

/-! ## Counting the iterations of double_and_add -/

theorem bitlength_half (n : Nat) (h : n ≠ 0) : bitlength n = bitlength (n / 2) + 1 := by
  unfold bitlength
  rw [if_neg h]
  by_cases h2 : n ≥ 2
  · have hne : n / 2 ≠ 0 := by omega
    have hlog : Nat.log2 n = Nat.log2 (n / 2) + 1 := by
      rw [Nat.log2, if_pos h2]
    rw [if_neg hne, hlog]
  · have h1 : n = 1 := by omega
    subst h1
    simp [Nat.log2]

theorem popcount_half (n : Nat) (h : n ≠ 0) : popcount n = popcount (n / 2) + n % 2 := by
  unfold popcount
  rw [Nat.digits_def' (by decide) (Nat.pos_of_ne_zero h), List.sum_cons, Nat.add_comm]

theorem bitlength_le_of_lt_two_pow (n k : Nat) (h : n < 2 ^ k) : bitlength n ≤ k := by
  unfold bitlength
  by_cases h0 : n = 0
  · rw [if_pos h0]; exact Nat.zero_le _
  · rw [if_neg h0]
    exact (Nat.log2_lt h0).mpr h

theorem double_and_add_loop_traced_spec {α : Type} (op : α → α → α) :
    ∀ (fuel n : Nat) (result var_elem : α) (iterations op_calls : Nat), n < 2 ^ fuel →
      (double_and_add_loop_traced op fuel n result var_elem iterations op_calls).result
          = double_and_add_loop op fuel n result var_elem ∧
      (double_and_add_loop_traced op fuel n result var_elem iterations op_calls).n_left = 0 ∧
      (double_and_add_loop_traced op fuel n result var_elem iterations op_calls).iterations
          = iterations + bitlength n ∧
      (double_and_add_loop_traced op fuel n result var_elem iterations op_calls).op_calls
          = op_calls + (bitlength n + popcount n) := by
  intro fuel
  induction fuel with
  | zero =>
    intro n result var_elem iterations op_calls hn
    have h0 : n = 0 := by simpa using hn
    subst h0
    simp [double_and_add_loop_traced, double_and_add_loop, bitlength, popcount]
  | succ fuel ih =>
    intro n result var_elem iterations op_calls hn
    unfold double_and_add_loop_traced double_and_add_loop
    by_cases h0 : n = 0
    · subst h0
      simp [bitlength, popcount]
    · rw [if_neg h0, if_neg h0]
      have hhalf : n / 2 < 2 ^ fuel := by
        rw [Nat.pow_succ] at hn; omega
      obtain ⟨h1, h2, h3, h4⟩ := ih (n / 2)
        (if n % 2 ≠ 0 then op result var_elem else result) (op var_elem var_elem)
        (iterations + 1) ((if n % 2 ≠ 0 then op_calls + 1 else op_calls) + 1) hhalf
      refine ⟨h1, h2, ?_, ?_⟩
      · rw [h3, bitlength_half n h0]; omega
      · rw [h4, bitlength_half n h0, popcount_half n h0]
        by_cases hodd : n % 2 ≠ 0
        · rw [if_pos hodd]; omega
        · rw [if_neg hodd]; omega

theorem modder_eq_of_m_eq {T : UIntType} (f g : LCGAffineTransform T) (h : f.m = g.m) :
    f.modder_ = g.modder_ := by
  cases hf : f.modder_; cases hg : g.modder_
  unfold LCGAffineTransform.m at h
  rw [hf, hg] at h
  simp only at h
  rw [h]

/-! ## The claims on associativity, frames and termination -/

/-- C21. For all transforms `f`, `g`, `h` with the same stored modulus,
`compose(compose(f, g), h) = compose(f, compose(g, h))`, in `a`, `c` and `m`. -/
theorem C21_compose_associative {T : UIntType} (f g h : LCGAffineTransform T)
    (hfg : f.m = g.m) (hgh : g.m = h.m) :
    LCGAffineTransform.compose (LCGAffineTransform.compose f g) h
      = LCGAffineTransform.compose f (LCGAffineTransform.compose g h) ∧
    (LCGAffineTransform.compose (LCGAffineTransform.compose f g) h).m = h.m :=
  ⟨LCGAffineTransform.compose_assoc f g h (modder_eq_of_m_eq f g hfg), hfg.trans hgh⟩

theorem C21_witness :
    (LCGAffineTransform.ctor (cast_T .u32 48271) (cast_T .u32 5) (cast_T .u32 2147483647)).m
      = (LCGAffineTransform.ctor (cast_T .u32 16807) (cast_T .u32 7) (cast_T .u32 2147483647)).m ∧
    (LCGAffineTransform.ctor (cast_T .u32 16807) (cast_T .u32 7) (cast_T .u32 2147483647)).m
      = (LCGAffineTransform.ctor (cast_T .u32 214013) (cast_T .u32 2531011)
          (cast_T .u32 2147483647)).m ∧
    LCGAffineTransform.compose
        (LCGAffineTransform.compose
          (LCGAffineTransform.ctor (cast_T .u32 48271) (cast_T .u32 5) (cast_T .u32 2147483647))
          (LCGAffineTransform.ctor (cast_T .u32 16807) (cast_T .u32 7) (cast_T .u32 2147483647)))
        (LCGAffineTransform.ctor (cast_T .u32 214013) (cast_T .u32 2531011)
          (cast_T .u32 2147483647))
      = LCGAffineTransform.compose
          (LCGAffineTransform.ctor (cast_T .u32 48271) (cast_T .u32 5) (cast_T .u32 2147483647))
          (LCGAffineTransform.compose
            (LCGAffineTransform.ctor (cast_T .u32 16807) (cast_T .u32 7)
              (cast_T .u32 2147483647))
            (LCGAffineTransform.ctor (cast_T .u32 214013) (cast_T .u32 2531011)
              (cast_T .u32 2147483647))) :=
  ⟨rfl, rfl,
    (C21_compose_associative
      (LCGAffineTransform.ctor (cast_T .u32 48271) (cast_T .u32 5) (cast_T .u32 2147483647))
      (LCGAffineTransform.ctor (cast_T .u32 16807) (cast_T .u32 7) (cast_T .u32 2147483647))
      (LCGAffineTransform.ctor (cast_T .u32 214013) (cast_T .u32 2531011)
        (cast_T .u32 2147483647)) rfl rfl).1⟩

/-- C22. Stepping changes only the state: after `operator()()` and after `discard(n)` the
accessors `a()`, `c()`, `m()` and `affine()` return what they returned before; a call of
`value_after_n_steps(n)` leaves the whole engine, state included, as it was. -/
theorem C22_stepping_changes_only_state {T : UIntType} (e : LCGEngine T) (n : Nat) :
    (e.call.2.a = e.a ∧ e.call.2.c = e.c ∧ e.call.2.m = e.m ∧ e.call.2.affine = e.affine) ∧
    ((e.discard n).a = e.a ∧ (e.discard n).c = e.c ∧ (e.discard n).m = e.m ∧
      (e.discard n).affine = e.affine) ∧
    ((e.value_after_n_steps_call n).2.a = e.a ∧ (e.value_after_n_steps_call n).2.c = e.c ∧
      (e.value_after_n_steps_call n).2.m = e.m ∧
      (e.value_after_n_steps_call n).2.state = e.state) ∧
    (e.value_after_n_steps_call n).1 = (e.affine.powered n).apply e.state :=
  ⟨⟨rfl, rfl, rfl, rfl⟩, ⟨rfl, rfl, rfl, rfl⟩, ⟨rfl, rfl, rfl, rfl⟩, rfl⟩

/-- C23. For every `n < 2 ^ 64` and every `op`, the loop of `double_and_add` is left through
its condition (`n` is 0 then), after exactly `bitlength n` iterations, at most 64, and
`bitlength n + popcount n` applications of `op`; the counters do not change the result. -/
theorem C23_double_and_add_iterations {α : Type} (op : α → α → α) (unit e : α) (n : Nat)
    (hn : n < 2 ^ 64) :
    (double_and_add_traced e n op unit).n_left = 0 ∧
    (double_and_add_traced e n op unit).iterations = bitlength n ∧
    (double_and_add_traced e n op unit).iterations ≤ 64 ∧
    (double_and_add_traced e n op unit).op_calls = bitlength n + popcount n ∧
    (double_and_add_traced e n op unit).result = double_and_add e n op unit ∧
    bitlength 0 = 0 ∧ bitlength n = (if n = 0 then 0 else Nat.log 2 n + 1) := by
  obtain ⟨h1, h2, h3, h4⟩ := double_and_add_loop_traced_spec op 64 n unit e 0 0 hn
  unfold double_and_add_traced double_and_add
  rw [h2, h3, h4]
  refine ⟨rfl, by omega, ?_, by omega, h1, rfl, ?_⟩
  · have := bitlength_le_of_lt_two_pow n 64 hn
    omega
  · unfold bitlength
    rw [Nat.log2_eq_log_two]

theorem C23_witness :
    (1000 : Nat) < 2 ^ 64 ∧
    (double_and_add_traced [7] 1000 (fun x y : List Nat => x ++ y) []).n_left = 0 ∧
    (double_and_add_traced [7] 1000 (fun x y : List Nat => x ++ y) []).iterations
      = bitlength 1000 ∧
    (double_and_add_traced [7] 1000 (fun x y : List Nat => x ++ y) []).iterations ≤ 64 ∧
    (double_and_add_traced [7] 1000 (fun x y : List Nat => x ++ y) []).op_calls
      = bitlength 1000 + popcount 1000 ∧
    (double_and_add_traced [7] 1000 (fun x y : List Nat => x ++ y) []).result
      = double_and_add [7] 1000 (fun x y : List Nat => x ++ y) [] ∧
    bitlength 0 = 0 ∧ bitlength 1000 = (if 1000 = 0 then 0 else Nat.log 2 1000 + 1) :=
  ⟨by decide, C23_double_and_add_iterations _ _ _ 1000 (by decide)⟩

end LcgPredict
